import Mathlib

/-!
Verification of the qdocs-search core: a shallow embedding of the
query scoring engine (`src/lib/search-engine.ts`), the index store
(`src/lib/search-index.ts`), the search API route
(`src/app/api/search/route.ts`) and the index-merge pipeline
(`scripts/combine-search-indexes.ts`, the variant that writes
`public/combined-searchindex.json`, which is the file the store loads).

External library functions used by the source (the Porter stemmer and the
Jaro-Winkler distance from the npm package `natural`, and `Math.log`) are
treated as parameters of the embedding: every theorem quantifies over them,
so it holds in particular for the real instantiations.  Scores, which the
source computes in floating point, are modelled in an arbitrary linear
ordered field `K`.
-/

namespace QDocs

/-! ## Character and string helpers

JS strings are modelled through their character lists (`String.data`).
`toLowerCase`, `includes`, `startsWith` and the default lexicographic
string comparison are modelled on ASCII data, which is all the engine's
token alphabet uses.
-/

/-- ASCII lower-casing of one character, the fragment of JS
`String.prototype.toLowerCase` relevant to the engine. -/
def lowerChar (c : Char) : Char :=
  if 'A' ≤ c ∧ c ≤ 'Z' then Char.ofNat (c.toNat + 32) else c

/-- Embedding of `String.prototype.toLowerCase` (ASCII fragment). -/
def toLowerStr (s : String) : String :=
  ⟨s.data.map lowerChar⟩

/-- A JS word character (`\w` = `[A-Za-z0-9_]`). -/
def wordChar (c : Char) : Bool :=
  c.isAlpha || c.isDigit || c = '_'

/-- Split a character list at every non-word character.  This models
`split(/\W+/)` up to empty fragments (`\W+` merges separator runs, so it
produces no internal empty strings; the engine filters all fragments of
length < 2 immediately afterwards, which removes empty fragments either
way, so the two agree after that filter). -/
def splitRuns (cs : List Char) : List (List Char) :=
  cs.foldr
    (fun c acc =>
      if wordChar c then
        match acc with
        | [] => [[c]]
        | r :: rs => (c :: r) :: rs
      else [] :: acc)
    [[]]

/-- List infix test, used to model `String.prototype.includes`. -/
def listInfixB [DecidableEq α] (needle : List α) : List α → Bool
  | [] => needle.isEmpty
  | a :: rest => needle.isPrefixOf (a :: rest) || listInfixB needle rest

/-- Embedding of `haystack.includes(needle)`. -/
def strContainsB (haystack needle : String) : Bool :=
  listInfixB needle.data haystack.data

/-- Embedding of `s.startsWith(pre)`. -/
def strStartsWithB (s pre : String) : Bool :=
  pre.data.isPrefixOf s.data

/-- Lexicographic comparison of character lists by code point, modelling
the default (code-unit) string comparison used by `Array.prototype.sort`
and `localeCompare` on the ASCII data the index holds. -/
def lexLeB : List Char → List Char → Bool
  | [], _ => true
  | _ :: _, [] => false
  | a :: as, b :: bs =>
    if a.toNat < b.toNat then true
    else if b.toNat < a.toNat then false
    else lexLeB as bs

/-- String comparison used for the posting-list sort and title tie-break. -/
def strLeB (a b : String) : Bool :=
  lexLeB a.data b.data

theorem lexLeB_total (a b : List Char) : lexLeB a b = true ∨ lexLeB b a = true := by
  induction a generalizing b with
  | nil => left; rfl
  | cons x xs ih =>
    cases b with
    | nil => right; rfl
    | cons y ys =>
      by_cases hxy : x.toNat < y.toNat
      · left; simp [lexLeB, hxy]
      · by_cases hyx : y.toNat < x.toNat
        · right; simp [lexLeB, hyx]
        · rcases ih ys with h | h
          · left; simp [lexLeB, hxy, hyx, h]
          · right; simp [lexLeB, hxy, hyx, h]

theorem lexLeB_head_le {x y : Char} {xs ys : List Char}
    (h : lexLeB (x :: xs) (y :: ys) = true) : x.toNat ≤ y.toNat := by
  by_contra hlt
  have hyx : y.toNat < x.toNat := by omega
  simp [lexLeB, if_neg (by omega : ¬ x.toNat < y.toNat), hyx] at h

theorem lexLeB_trans {a b c : List Char} (hab : lexLeB a b = true)
    (hbc : lexLeB b c = true) : lexLeB a c = true := by
  induction a generalizing b c with
  | nil => rfl
  | cons x xs ih =>
    cases b with
    | nil => simp [lexLeB] at hab
    | cons y ys =>
      cases c with
      | nil => simp [lexLeB] at hbc
      | cons z zs =>
        have h1 : x.toNat ≤ y.toNat := lexLeB_head_le hab
        have h2 : y.toNat ≤ z.toNat := lexLeB_head_le hbc
        by_cases hxz : x.toNat < z.toNat
        · simp [lexLeB, hxz]
        · have hxy : x.toNat = y.toNat := by omega
          have hyz : y.toNat = z.toNat := by omega
          have hab' : lexLeB xs ys = true := by
            simpa [lexLeB, hxy, if_neg (lt_irrefl y.toNat)] using hab
          have hbc' : lexLeB ys zs = true := by
            simpa [lexLeB, hyz, if_neg (lt_irrefl z.toNat)] using hbc
          have hxz' : x.toNat = z.toNat := by omega
          simpa [lexLeB, hxz', if_neg (lt_irrefl z.toNat)] using ih hab' hbc'

theorem strLeB_total (a b : String) : strLeB a b = true ∨ strLeB b a = true :=
  lexLeB_total a.data b.data

theorem strLeB_trans {a b c : String} (hab : strLeB a b = true)
    (hbc : strLeB b c = true) : strLeB a c = true :=
  lexLeB_trans hab hbc

/-! ## A stable sort

`Array.prototype.sort` is stable (ECMAScript 2019+).  We model it by the
classic stable insertion sort over a Boolean "precedes-or-ties"
comparator; only permutation facts (lengths, membership, duplicates) and,
for the merge pipeline, sortedness are used by the claims. -/

/-- Insert `x` into `l`, placing it before the first element it
precedes-or-ties (stability: an element inserted later never jumps over a
tie). -/
def orderedInsertB (le : α → α → Bool) (x : α) : List α → List α
  | [] => [x]
  | y :: ys => if le x y then x :: y :: ys else y :: orderedInsertB le x ys

/-- Stable insertion sort by a Boolean comparator. -/
def insertionSortB (le : α → α → Bool) : List α → List α
  | [] => []
  | x :: xs => orderedInsertB le x (insertionSortB le xs)

theorem orderedInsertB_perm (le : α → α → Bool) (x : α) (l : List α) :
    List.Perm (orderedInsertB le x l) (x :: l) := by
  induction l with
  | nil => exact List.Perm.refl _
  | cons y ys ih =>
    by_cases h : le x y = true
    · simp [orderedInsertB, h]
    · simp only [orderedInsertB, h, Bool.false_eq_true, if_false]
      exact (ih.cons y).trans (List.Perm.swap x y ys)

theorem insertionSortB_perm (le : α → α → Bool) (l : List α) :
    List.Perm (insertionSortB le l) l := by
  induction l with
  | nil => exact List.Perm.refl _
  | cons x xs ih =>
    exact (orderedInsertB_perm le x (insertionSortB le xs)).trans (ih.cons x)

theorem insertionSortB_length (le : α → α → Bool) (l : List α) :
    (insertionSortB le l).length = l.length :=
  (insertionSortB_perm le l).length_eq

theorem insertionSortB_mem (le : α → α → Bool) (l : List α) (a : α) :
    a ∈ insertionSortB le l ↔ a ∈ l :=
  (insertionSortB_perm le l).mem_iff

/-- Sortedness of insertion by a total transitive comparator. -/
theorem orderedInsertB_sorted (le : α → α → Bool)
    (htot : ∀ a b, le a b = true ∨ le b a = true)
    (htrans : ∀ {a b c}, le a b = true → le b c = true → le a c = true)
    (x : α) (l : List α) (hl : l.Pairwise (fun a b => le a b = true)) :
    (orderedInsertB le x l).Pairwise (fun a b => le a b = true) := by
  induction l with
  | nil => simp [orderedInsertB]
  | cons y ys ih =>
    rcases List.pairwise_cons.mp hl with ⟨hy, hys⟩
    by_cases h : le x y = true
    · simp only [orderedInsertB, h, if_true]
      refine List.pairwise_cons.mpr ⟨?_, hl⟩
      intro b hb
      rcases hb with _ | hb
      · exact h
      · exact htrans h (hy _ (by assumption))
    · simp only [orderedInsertB, h, Bool.false_eq_true, if_false]
      refine List.pairwise_cons.mpr ⟨?_, ih hys⟩
      intro b hb
      have := (orderedInsertB_perm le x ys).mem_iff.mp hb
      rcases List.mem_cons.mp this with hbx | hby
      · subst hbx
        rcases htot y b with hh | hh
        · exact hh
        · exact absurd hh h
      · exact hy _ hby

theorem insertionSortB_sorted (le : α → α → Bool)
    (htot : ∀ a b, le a b = true ∨ le b a = true)
    (htrans : ∀ {a b c}, le a b = true → le b c = true → le a c = true)
    (l : List α) :
    (insertionSortB le l).Pairwise (fun a b => le a b = true) := by
  induction l with
  | nil => simp [insertionSortB]
  | cons x xs ih => exact orderedInsertB_sorted le htot htrans x _ ih

/-! ## Association lists with JS `Map` semantics

`Map.set` updates an existing key in place (keeping its position in
iteration order) and appends a new key at the end; iteration follows
insertion order.  The engine also uses plain null-prototype objects this
way (`Object.keys` iteration order for string keys is insertion order). -/

/-- First-match lookup, `Map.prototype.get`. -/
def alookup (m : List (String × β)) (k : String) : Option β :=
  match m with
  | [] => none
  | (k', v) :: rest => if k' = k then some v else alookup rest k

/-- Lookup with a default, `map.get(k) ?? d`. -/
def agetD (m : List (String × β)) (k : String) (d : β) : β :=
  (alookup m k).getD d

/-- `Map.prototype.set`: update in place or append. -/
def aset (m : List (String × β)) (k : String) (v : β) : List (String × β) :=
  match m with
  | [] => [(k, v)]
  | (k', v') :: rest => if k' = k then (k, v) :: rest else (k', v') :: aset rest k v

/-- Iteration-order key list. -/
def akeys (m : List (String × β)) : List String :=
  m.map Prod.fst

theorem alookup_aset_self (m : List (String × β)) (k : String) (v : β) :
    alookup (aset m k v) k = some v := by
  induction m with
  | nil => simp [aset, alookup]
  | cons p rest ih =>
    obtain ⟨k', v'⟩ := p
    by_cases h : k' = k
    · simp [aset, alookup, h]
    · simp [aset, alookup, h, ih]

theorem alookup_aset_ne (m : List (String × β)) (k k₀ : String) (v : β)
    (hne : k ≠ k₀) : alookup (aset m k v) k₀ = alookup m k₀ := by
  induction m with
  | nil => simp [aset, alookup, hne]
  | cons p rest ih =>
    obtain ⟨k', v'⟩ := p
    by_cases h : k' = k
    · subst h
      simp [aset, alookup, hne]
    · simp only [aset, h, if_false]
      by_cases h0 : k' = k₀
      · simp [alookup, h0]
      · simp [alookup, h0, ih]

theorem akeys_aset (m : List (String × β)) (k : String) (v : β) :
    akeys (aset m k v) = if k ∈ akeys m then akeys m else akeys m ++ [k] := by
  induction m with
  | nil => simp [aset, akeys]
  | cons p rest ih =>
    obtain ⟨k', v'⟩ := p
    simp only [akeys, List.map_cons] at ih ⊢
    by_cases h : k' = k
    · subst h
      simp [aset]
    · simp only [aset, h, if_false, List.map_cons]
      by_cases hm : k ∈ rest.map Prod.fst
      · simp [hm, Ne.symm h, ih]
      · simp [hm, Ne.symm h, ih]

theorem mem_akeys_aset (m : List (String × β)) (k k₀ : String) (v : β) :
    k₀ ∈ akeys (aset m k v) ↔ k₀ ∈ akeys m ∨ k₀ = k := by
  rw [akeys_aset]
  by_cases h : k ∈ akeys m
  · simp only [h, if_true]
    constructor
    · intro hm; exact Or.inl hm
    · rintro (hm | rfl)
      · exact hm
      · exact h
  · simp [h, or_comm]

theorem akeys_aset_nodup (m : List (String × β)) (k : String) (v : β)
    (h : (akeys m).Nodup) : (akeys (aset m k v)).Nodup := by
  rw [akeys_aset]
  by_cases hm : k ∈ akeys m
  · simpa [hm] using h
  · simp only [hm, if_false]
    exact List.Nodup.append h (List.nodup_singleton k) (by simpa using hm)

theorem alookup_eq_none_of_not_mem (m : List (String × β)) (k : String)
    (h : k ∉ akeys m) : alookup m k = none := by
  induction m with
  | nil => rfl
  | cons p rest ih =>
    obtain ⟨k', v'⟩ := p
    simp only [akeys, List.map_cons, List.mem_cons] at h
    push_neg at h
    simp [alookup, (Ne.symm h.1 : k' ≠ k), ih (by simpa [akeys] using h.2)]

theorem alookup_isSome_iff_mem (m : List (String × β)) (k : String) :
    (alookup m k).isSome = true ↔ k ∈ akeys m := by
  induction m with
  | nil => simp [alookup, akeys]
  | cons p rest ih =>
    obtain ⟨k', v'⟩ := p
    by_cases h : k' = k
    · simp [alookup, akeys, h]
    · simp [alookup, akeys, h, ih, Ne.symm h]

/-! ## Decimal rendering of document indices

The pipeline forms namespaced ids by template interpolation
`` `${projectId}:${i}` ``; JS renders the non-negative integer `i` in
decimal.  We model that rendering with an explicit fuel so it reduces in
the kernel, and prove what id uniqueness needs: the rendering is injective
and produces only digit characters (never a colon). -/

/-- The decimal digit character for `n < 10`. -/
def digitChar (n : ℕ) : Char :=
  Char.ofNat (48 + n)

/-- Decimal rendering with fuel (the fuel bounds the number of digits). -/
def natToCharsFuel : ℕ → ℕ → List Char
  | 0, _ => []
  | fuel + 1, n =>
    if n < 10 then [digitChar n]
    else natToCharsFuel fuel (n / 10) ++ [digitChar (n % 10)]

/-- Decimal rendering of a natural number, as JS string interpolation does. -/
def natStr (n : ℕ) : String :=
  ⟨natToCharsFuel (n + 1) n⟩

/-- Value of a digit string, the left inverse used to prove injectivity. -/
def digitsVal (cs : List Char) : ℕ :=
  cs.foldl (fun acc c => 10 * acc + (c.toNat - 48)) 0

theorem digitChar_toNat (n : ℕ) (h : n < 10) : (digitChar n).toNat = 48 + n := by
  interval_cases n <;> rfl

theorem digitsVal_append (cs : List Char) (c : Char) :
    digitsVal (cs ++ [c]) = 10 * digitsVal cs + (c.toNat - 48) := by
  simp [digitsVal, List.foldl_append]

theorem digitsVal_natToCharsFuel (fuel n : ℕ) (h : n < 10 ^ fuel) :
    digitsVal (natToCharsFuel fuel n) = n := by
  induction fuel generalizing n with
  | zero =>
    simp at h
    simp [h, natToCharsFuel, digitsVal]
  | succ fuel ih =>
    by_cases h10 : n < 10
    · simp [natToCharsFuel, h10, digitsVal, digitChar_toNat n h10]
    · have hdiv : n / 10 < 10 ^ fuel := by
        rw [Nat.div_lt_iff_lt_mul (by norm_num)]
        calc n < 10 ^ (fuel + 1) := h
        _ = 10 ^ fuel * 10 := by ring
      simp only [natToCharsFuel, h10, if_false, digitsVal_append, ih _ hdiv,
        digitChar_toNat _ (Nat.mod_lt n (by norm_num))]
      omega

theorem natToCharsFuel_digits (fuel n : ℕ) (c : Char)
    (hc : c ∈ natToCharsFuel fuel n) : 48 ≤ c.toNat ∧ c.toNat ≤ 57 := by
  induction fuel generalizing n with
  | zero => simp [natToCharsFuel] at hc
  | succ fuel ih =>
    by_cases h10 : n < 10
    · simp [natToCharsFuel, h10] at hc
      subst hc
      rw [digitChar_toNat n h10]
      omega
    · simp only [natToCharsFuel, h10, if_false, List.mem_append, List.mem_singleton] at hc
      rcases hc with hc | hc
      · exact ih _ hc
      · subst hc
        rw [digitChar_toNat _ (Nat.mod_lt n (by norm_num))]
        omega

theorem lt_ten_pow_succ (n : ℕ) : n < 10 ^ (n + 1) :=
  lt_of_lt_of_le (Nat.lt_pow_self (by norm_num) n)
    (Nat.pow_le_pow_right (by norm_num) (Nat.le_succ n))

theorem natStr_inj {m n : ℕ} (h : natStr m = natStr n) : m = n := by
  have hdata : natToCharsFuel (m + 1) m = natToCharsFuel (n + 1) n :=
    congrArg String.data h
  have hm := digitsVal_natToCharsFuel (m + 1) m (lt_ten_pow_succ m)
  have hn := digitsVal_natToCharsFuel (n + 1) n (lt_ten_pow_succ n)
  rw [← hm, ← hn, hdata]

theorem colon_not_mem_natStr (n : ℕ) : ':' ∉ (natStr n).data := by
  intro hmem
  have := natToCharsFuel_digits (n + 1) n _ hmem
  have hcolon : (':' : Char).toNat = 58 := rfl
  omega

/-- Splitting at the last separator is unambiguous when the tail is
separator-free. -/
theorem append_colon_inj {a b u v : List Char}
    (hu : ':' ∉ u) (hv : ':' ∉ v)
    (h : a ++ ':' :: u = b ++ ':' :: v) : a = b ∧ u = v := by
  induction a generalizing b with
  | nil =>
    cases b with
    | nil => simpa using h
    | cons y b' =>
      simp only [List.nil_append, List.cons_append, List.cons.injEq] at h
      exact absurd (h.2 ▸ List.mem_append_right b' (List.mem_cons_self ':' v)) hu
  | cons x a' ih =>
    cases b with
    | nil =>
      simp only [List.nil_append, List.cons_append, List.cons.injEq] at h
      exact absurd (h.2.symm ▸ List.mem_append_right a' (List.mem_cons_self ':' u)) hv
    | cons y b' =>
      simp only [List.cons_append, List.cons.injEq] at h
      obtain ⟨ha, hu'⟩ := ih h.2
      exact ⟨by rw [h.1, ha], hu'⟩

/-- Embedding of the id template `` `${projectId}:${i}` ``. -/
def mkDocId (projectId : String) (i : ℕ) : String :=
  projectId ++ ":" ++ natStr i

theorem mkDocId_data (p : String) (i : ℕ) :
    (mkDocId p i).data = p.data ++ ':' :: (natStr i).data := by
  simp [mkDocId, natStr]

theorem mkDocId_inj {p₁ p₂ : String} {i₁ i₂ : ℕ}
    (h : mkDocId p₁ i₁ = mkDocId p₂ i₂) : p₁ = p₂ ∧ i₁ = i₂ := by
  have hdata : p₁.data ++ ':' :: (natStr i₁).data
      = p₂.data ++ ':' :: (natStr i₂).data := by
    rw [← mkDocId_data, ← mkDocId_data, h]
  obtain ⟨hp, hi⟩ :=
    append_colon_inj (colon_not_mem_natStr i₁) (colon_not_mem_natStr i₂) hdata
  exact ⟨String.ext hp, natStr_inj (String.ext hi)⟩

/-! ## Tokenisation (`search-engine.ts`, `tokenise` / `tokeniseWithRaw`)

The Porter stemmer from the `natural` package is an external library
function; the embedding takes it as the parameter `stem`. -/

/-- English stop words stripped before stemming (`STOP_WORDS`). -/
def STOP_WORDS : List String :=
  ["a", "an", "the", "and", "or", "but", "in", "on", "at", "to", "for",
   "of", "with", "is", "are", "was", "were", "be", "been", "being",
   "have", "has", "had", "do", "does", "did", "will", "would", "could",
   "should", "may", "might", "can", "this", "that", "these", "those",
   "it", "its", "from", "by", "about", "as", "into", "through",
   "during", "before", "after", "above", "below", "up", "down",
   "out", "off", "over", "under", "again", "then", "once", "not",
   "no", "nor", "so", "yet", "both", "either", "each", "all", "more",
   "most", "other", "such", "own", "than", "too", "very", "just",
   "how", "what", "when", "where", "which", "who", "why", "if"]

/-- A (raw, stem) token pair. -/
structure Token where
  raw : String
  stem : String
deriving DecidableEq

/-- The fragments produced by `query.toLowerCase().split(/\W+/)`. -/
def rawFragments (query : String) : List String :=
  (splitRuns (toLowerStr query).data).map fun cs => (⟨cs⟩ : String)

/-- The cleaned, stop-word-filtered fragments of a query, before stemming:
lowercase, split on non-word characters, keep fragments of length ≥ 2 that
are not stop words. -/
def queryFragments (query : String) : List String :=
  (rawFragments query).filter
    fun t => decide (2 ≤ t.length) && !(STOP_WORDS.contains t)

/-- Embedding of `tokenise`. -/
def tokenise (stem : String → String) (query : String) : List String :=
  (queryFragments query).map stem

/-- Embedding of `tokeniseWithRaw`. -/
def tokeniseWithRaw (stem : String → String) (query : String) : List Token :=
  (queryFragments query).map fun t => ⟨t, stem t⟩

/-! ## Index store (`search-index.ts`) -/

/-- One indexed document of the combined snapshot. -/
structure DocumentRecord where
  id : String
  project : String
  filename : String
  title : String
  url : String
deriving DecidableEq

/-- One section-heading reference of the `alltitles` table. -/
structure TitleEntry where
  docId : String
  anchor : Option String
deriving DecidableEq

/-- A matched section reported in a result (`SectionMatch` of `types.ts`). -/
structure SectionMatch where
  title : String
  anchor : Option String
deriving DecidableEq

/-- The loaded combined snapshot, as the engine consumes it.  `terms`,
`titleterms` and `alltitles` are JS objects used as string-keyed maps;
their `Object.keys`/`Object.entries` iteration order is insertion order,
which the association-list representation preserves. -/
structure SearchIndex where
  documents : List DocumentRecord
  terms : List (String × List String)
  titleterms : List (String × List String)
  alltitles : List (String × List TitleEntry)

/-- Embedding of the derived `docMap` (a JS `Map` built from
`index.documents`; on duplicate ids the later entry wins, as `Map.set`
overwrites). -/
def docMap (idx : SearchIndex) : List (String × DocumentRecord) :=
  idx.documents.foldl (fun m d => aset m d.id d) []

/-- Embedding of `totalDocs`. -/
def totalDocs (idx : SearchIndex) : ℕ :=
  idx.documents.length

/-- Embedding of `getTermDocs` (`index.terms[term] ?? []`). -/
def getTermDocs (idx : SearchIndex) (term : String) : List String :=
  agetD idx.terms term []

/-- Embedding of `getTitleTermDocs`. -/
def getTitleTermDocs (idx : SearchIndex) (term : String) : List String :=
  agetD idx.titleterms term []

/-- Embedding of `getAllTitles`. -/
def getAllTitles (idx : SearchIndex) : List (String × List TitleEntry) :=
  idx.alltitles

/-- Embedding of `getAllTermKeys` (`Object.keys(index.terms)`). -/
def getAllTermKeys (idx : SearchIndex) : List String :=
  akeys idx.terms

/-- Embedding of `getAllTitleTermKeys`. -/
def getAllTitleTermKeys (idx : SearchIndex) : List String :=
  akeys idx.titleterms

/-! ## Scoring constants and IDF -/

/-- Minimum Jaro-Winkler similarity to accept a fuzzy term match. -/
def FUZZY_THRESHOLD (K : Type) [LinearOrderedField K] : K := 88 / 100

/-- Score weight for a body-text (terms) match. -/
def BODY_WEIGHT (K : Type) [LinearOrderedField K] : K := 1

/-- Score weight for a title/heading (titleterms) match. -/
def TITLE_WEIGHT (K : Type) [LinearOrderedField K] : K := 3

/-- Score weight for an alltitles section match. -/
def SECTION_WEIGHT (K : Type) [LinearOrderedField K] : K := 2

/-- Multiplier applied when a doc matches all query tokens. -/
def ALL_TOKENS_BONUS (K : Type) [LinearOrderedField K] : K := 5 / 4

/-- Maximum number of results returned when no limit is specified. -/
def DEFAULT_LIMIT : ℕ := 20

/-- The smoothed IDF of `search-engine.ts`:
`Math.log((totalDocs + 1) / (docCount + 1)) + 1`, with `Math.log` the
natural logarithm, idealised over the reals. -/
noncomputable def idf (totalDocs docCount : ℕ) : ℝ :=
  Real.log ((totalDocs + 1) / (docCount + 1)) + 1

/-- The external library functions the engine calls, as parameters of the
embedding: the Porter stemmer, the Jaro-Winkler similarity, and the IDF
curve `n ↦ idf(totalDocs, n)` (its numeric evaluation). -/
structure EngineParams (K : Type) [LinearOrderedField K] where
  stem : String → String
  jw : String → String → K
  idfF : ℕ → K

variable {K : Type} [LinearOrderedField K]

/-! ## Fuzzy lookup (`fuzzyMatch`) -/

/-- One iteration of `fuzzyMatch`'s scan: skip candidates failing the
length gate, otherwise keep the strictly better of the current best and
this candidate, subject to the similarity threshold. -/
def fuzzyStep (jw : String → String → K) (token : String)
    (best : Option (String × K)) (key : String) : Option (String × K) :=
  if 4 < ((key.length : ℤ) - (token.length : ℤ)).natAbs then best
  else
    let sim := jw token key
    match best with
    | none => if FUZZY_THRESHOLD K ≤ sim then some (key, sim) else none
    | some (bk, bs) =>
      if FUZZY_THRESHOLD K ≤ sim ∧ bs < sim then some (key, sim)
      else some (bk, bs)

/-- Embedding of `fuzzyMatch`: linear scan keeping the best candidate that
clears the length gate and the similarity threshold.  Total by
construction (the contract "never raises"). -/
def fuzzyMatch (jw : String → String → K) (token : String)
    (keys : List String) : Option (String × K) :=
  keys.foldl (fuzzyStep jw token) none

/-! ## The scoring state and the phases of `search` -/

/-- The per-call accumulators of `search`: `scores`, `matchedMap`,
`tokenMatchSets` and `sectionBonus`. -/
structure SState (K : Type) [LinearOrderedField K] where
  scores : List (String × K)
  matched : List (String × List String)
  tms : List (String × List String)
  sections : List (String × List SectionMatch)

/-- The empty accumulators at the start of a `search` call. -/
def emptyState : SState K := ⟨[], [], [], []⟩

/-- The project filter of `addScore`: `if (project)` is JS truthiness, so
an absent or empty project string disables the filter. -/
def scopeOk (project : Option String) (docId : String) : Bool :=
  match project with
  | none => true
  | some p => if p = "" then true else strStartsWithB docId (p ++ ":")

/-- `if (s ∉ set) set.add(s)`: `Set.prototype.add` on an insertion-ordered
list. -/
def insertIfAbsent (l : List String) (s : String) : List String :=
  if s ∈ l then l else l ++ [s]

/-- `Set.prototype.add` on an insertion-ordered stem set stored per doc. -/
def insStem (m : List (String × List String)) (docId stem : String) :
    List (String × List String) :=
  aset m docId (insertIfAbsent (agetD m docId []) stem)

/-- Embedding of the `addScore` helper closed over `search`'s state. -/
def addScore (project : Option String) (st : SState K) (docId : String)
    (weight : K) (stem : String) : SState K :=
  if scopeOk project docId then
    { scores := aset st.scores docId (agetD st.scores docId 0 + weight)
      matched := insStem st.matched docId stem
      tms := insStem st.tms docId stem
      sections := st.sections }
  else st

/-- One iteration of `search`'s main token loop: exact title-term and
body-term lookups, then the fuzzy fallback when both were empty. -/
def processToken (P : EngineParams K) (idx : SearchIndex)
    (project : Option String) (st : SState K) (t : Token) : SState K :=
  let exactTitleDocs := getTitleTermDocs idx t.stem
  let exactBodyDocs := getTermDocs idx t.stem
  let st1 :=
    if 0 < exactTitleDocs.length then
      exactTitleDocs.foldl
        (fun s d =>
          addScore project s d (TITLE_WEIGHT K * P.idfF exactTitleDocs.length) t.stem)
        st
    else st
  let st2 :=
    if 0 < exactBodyDocs.length then
      exactBodyDocs.foldl
        (fun s d =>
          addScore project s d (BODY_WEIGHT K * P.idfF exactBodyDocs.length) t.stem)
        st1
    else st1
  if exactTitleDocs.length = 0 ∧ exactBodyDocs.length = 0 then
    let st3 :=
      match fuzzyMatch P.jw t.stem (getAllTitleTermKeys idx) with
      | none => st2
      | some (key, similarity) =>
        let fuzzyDocs := getTitleTermDocs idx key
        fuzzyDocs.foldl
          (fun s d =>
            addScore project s d
              (TITLE_WEIGHT K * P.idfF fuzzyDocs.length * similarity) t.stem)
          st2
    match fuzzyMatch P.jw t.stem (getAllTermKeys idx) with
    | none => st3
    | some (key, similarity) =>
      let fuzzyDocs := getTermDocs idx key
      fuzzyDocs.foldl
        (fun s d =>
          addScore project s d
            (BODY_WEIGHT K * P.idfF fuzzyDocs.length * similarity) t.stem)
        st3
  else st2

/-- The per-heading scan of the section loop: the number of query tokens
(counted with multiplicity, as the source's `matchCount++` does) whose
stem the lowercased heading contains, together with the set of the
distinct matched stems. -/
def headingMatches (tokens : List Token) (titleLower : String) :
    ℕ × List String :=
  tokens.foldl
    (fun p t =>
      if strContainsB titleLower t.stem then (p.1 + 1, insertIfAbsent p.2 t.stem)
      else p)
    (0, [])

/-- The body of the section loop for one `alltitles` entry: skip when the
scope excludes the doc, otherwise add the bonus and record the heading
(with its anchor) against the doc for display. -/
def headingStep (project : Option String) (bonus : K) (stem0 : String)
    (title : String) (s : SState K) (e : TitleEntry) : SState K :=
  if scopeOk project e.docId = false then s
  else
    let s1 := addScore project s e.docId bonus stem0
    { s1 with
      sections :=
        aset s1.sections e.docId
          (agetD s1.sections e.docId [] ++ [⟨title, e.anchor⟩]) }

/-- One iteration of the section-title bonus loop of `search`. -/
def processHeading (project : Option String) (tokens : List Token)
    (st : SState K) (entry : String × List TitleEntry) : SState K :=
  let mc := headingMatches tokens (toLowerStr entry.1)
  if mc.1 = 0 then st
  else
    entry.2.foldl
      (headingStep project (SECTION_WEIGHT K * (mc.1 : K)) (mc.2.headD "") entry.1)
      st

/-- `new Set(tokens.map(t => t.stem))`: insertion-ordered distinct stems. -/
def uniqueStems (tokens : List Token) : List String :=
  tokens.foldl (fun acc t => insertIfAbsent acc t.stem) []

/-- The all-tokens bonus pass: iterate `tokenMatchSets` and multiply the
score of every doc whose matched-stem count equals the distinct-stem
count, but only for multi-stem queries. -/
def bonusApply (uniqueStemCount : ℕ) (tms : List (String × List String))
    (scores : List (String × K)) : List (String × K) :=
  tms.foldl
    (fun sc p =>
      if 1 < uniqueStemCount ∧ p.2.length = uniqueStemCount then
        aset sc p.1 (agetD sc p.1 0 * ALL_TOKENS_BONUS K)
      else sc)
    scores

/-- A ranked search result (`SearchResult` of `types.ts`). -/
structure SearchResult (K : Type) [LinearOrderedField K] where
  docId : String
  project : String
  title : String
  url : String
  score : K
  matchedTerms : List String
  sections : List SectionMatch

/-- The result-building loop of `search`: one entry per scored doc id,
skipping ids absent from `docMap` ("shouldn't happen, but guard
anyway"). -/
def buildResults (idx : SearchIndex) (st : SState K) : List (SearchResult K) :=
  st.scores.foldl
    (fun acc p =>
      match alookup (docMap idx) p.1 with
      | none => acc
      | some doc =>
        acc ++ [⟨p.1, doc.project, doc.title, doc.url, p.2,
                 agetD st.matched p.1 [], agetD st.sections p.1 []⟩])
    []

/-- The sort comparator of `search`: score descending, then title
ascending (`localeCompare` modelled as code-point comparison), as a
"precedes-or-ties" Boolean relation for the stable sort. -/
def resultLeB (a b : SearchResult K) : Bool :=
  if b.score < a.score then true
  else if a.score = b.score then strLeB a.title b.title
  else false

/-- The main token loop of `search`, from the empty accumulators. -/
def tokenPhase (P : EngineParams K) (idx : SearchIndex)
    (project : Option String) (tokens : List Token) : SState K :=
  tokens.foldl (processToken P idx project) emptyState

/-- The section-title bonus loop of `search`. -/
def sectionPhase (project : Option String) (tokens : List Token)
    (idx : SearchIndex) (st : SState K) : SState K :=
  (getAllTitles idx).foldl (processHeading project tokens) st

/-- The accumulators at the end of `search`'s scoring, after the
all-tokens bonus pass. -/
def finalState (P : EngineParams K) (idx : SearchIndex)
    (project : Option String) (tokens : List Token) : SState K :=
  let st2 := sectionPhase project tokens idx (tokenPhase P idx project tokens)
  { st2 with scores := bonusApply (uniqueStems tokens).length st2.tms st2.scores }

/-- The whole of `search` up to (and including) the sort, before the
`slice(0, limit)` truncation: the list of all matching documents, ranked. -/
def searchAll (P : EngineParams K) (idx : SearchIndex) (query : String)
    (project : Option String) : List (SearchResult K) :=
  let tokens := tokeniseWithRaw P.stem query
  if tokens.isEmpty then []
  else insertionSortB resultLeB (buildResults idx (finalState P idx project tokens))

/-- Embedding of `search(query, { project, limit })`. -/
def search (P : EngineParams K) (idx : SearchIndex) (query : String)
    (project : Option String) (limit : ℕ) : List (SearchResult K) :=
  (searchAll P idx query project).take limit

/-! ## The API route (`src/app/api/search/route.ts`) -/

/-- The metadata block of a search response (`durationMs`, wall-clock
time, is not modelled). -/
structure SearchMeta where
  query : String
  project : Option String
  count : ℕ
  total : ℕ
deriving DecidableEq

/-- The body built by the GET handler. -/
structure SearchResponse (K : Type) [LinearOrderedField K] where
  results : List (SearchResult K)
  meta : SearchMeta

/-- Embedding of the route's successful path after parameter validation
(`q` non-empty, `limit` within 1..50, known project): over-fetch with
limit 500, truncate to the requested limit, and assemble the metadata. -/
def getHandler (P : EngineParams K) (idx : SearchIndex) (q : String)
    (project : Option String) (limit : ℕ) : SearchResponse K :=
  let allResults := search P idx q project 500
  let limited := allResults.take limit
  ⟨limited, ⟨q, project, limited.length, allResults.length⟩⟩

/-! ## The index-merge pipeline (`scripts/combine-search-indexes.ts`)

The repository carries two revisions of the merge script; the live one is
the revision that scans `public/<project>/` and writes
`public/combined-searchindex.json` — the file `search-index.ts` loads —
and that resolves base paths through `projectInfo.json`.  That revision is
what is embedded here.  File-system access is abstracted into a
`DirEntry` per discovered directory (directory name, the parsed raw index
when `searchindex.js` exists, the presence of a rendered `index.html`, the
optional project descriptor); a malformed `searchindex.js` aborts the
whole run inside `parseSphinxIndex` before any of the logic modelled
here. -/

/-- A raw Sphinx posting: a bare document index or an array of indices. -/
inductive Posting where
  | one (i : ℕ)
  | many (is : List ℕ)
deriving DecidableEq

/-- Embedding of `toDocIndexArray`. -/
def toDocIndexArray : Posting → List ℕ
  | .one i => [i]
  | .many is => is

/-- The parsed payload of one project's `searchindex.js`. -/
structure SphinxIndex where
  filenames : List String
  titles : List String
  terms : List (String × Posting)
  titleterms : List (String × Posting)
  alltitles : List (String × List (ℕ × Option String))

/-- A quick-link of `projectInfo.json` (a path, still to be resolved). -/
structure SuggestedLinkIn where
  title : String
  path : String
  subtitle : String

/-- The optional per-project descriptor `projectInfo.json` (all fields
optional; a missing or unparsable file is the all-empty descriptor). -/
structure ProjectInfo where
  externalBaseUrl : Option String
  externalDocsPath : Option String
  suggestedLinks : List SuggestedLinkIn

/-- One directory discovered under `public/`. -/
structure DirEntry where
  name : String
  sphinx : Option SphinxIndex
  hasLocalIndexHtml : Bool
  info : ProjectInfo

/-- A resolved quick-link (absolute URL). -/
structure SuggestedLink where
  title : String
  url : String
  subtitle : String

/-- A project entry of the merged snapshot (`indexedAt`, a file mtime, is
not modelled). -/
structure ProjectMeta where
  id : String
  basePath : String
  docsPath : String
  isExternal : Bool
  docCount : ℕ
  suggestedLinks : List SuggestedLink

/-- The result of `resolveBasePath`. -/
structure ResolvedBase where
  basePath : String
  docsPath : String
  isExternal : Bool
  suggestedLinks : List SuggestedLink

/-- The regex `replace(/\/$/, "")`: strip one trailing slash. -/
def stripTrailingSlash (s : String) : String :=
  if s.data.getLast? = some '/' then ⟨s.data.dropLast⟩ else s

/-- Node's `path.join` on the (URL, relative sub-path) inputs the resolver
feeds it, modelled as slash concatenation. -/
def joinPath (a b : String) : String :=
  a ++ "/" ++ b

/-- Embedding of `resolveBasePath`: local rendered entry page first, then
the external base URL of the descriptor, else the local-path fallback
(with a console warning, not modelled). -/
def resolveBasePath (projectId : String) (hasLocal : Bool)
    (info : ProjectInfo) : ResolvedBase :=
  let r : String × String × Bool :=
    if hasLocal then ("/" ++ projectId, "/" ++ projectId, false)
    else
      match info.externalBaseUrl with
      | some url =>
        let basePath := stripTrailingSlash url
        let docsPath :=
          match info.externalDocsPath with
          | some dp => joinPath basePath dp
          | none => basePath
        (basePath, docsPath, true)
      | none => ("/" ++ projectId, "/" ++ projectId, false)
  ⟨r.1, r.2.1, r.2.2,
   info.suggestedLinks.map fun l => ⟨l.title, r.1 ++ l.path, l.subtitle⟩⟩

/-- Left-to-right global replacement of a non-empty pattern, the model of
`String.prototype.replace` with a global literal pattern; the fuel is
bounded by the input length. -/
def replaceAllFuel (pat rep : List Char) : ℕ → List Char → List Char
  | 0, cs => cs
  | fuel + 1, cs =>
    match cs with
    | [] => []
    | c :: rest =>
      if pat.isPrefixOf (c :: rest) then
        rep ++ replaceAllFuel pat rep fuel ((c :: rest).drop pat.length)
      else c :: replaceAllFuel pat rep fuel rest

/-- Global literal replacement on strings. -/
def replaceAll (s pat rep : String) : String :=
  ⟨replaceAllFuel pat.data rep.data s.data.length s.data⟩

/-- One pass of the tag-stripping regex `/<[^>]+>/g`: each `<` followed by
one or more non-`>` characters and a `>` is removed; the fuel is bounded
by the input length. -/
def stripTagsFuel : ℕ → List Char → List Char
  | 0, cs => cs
  | fuel + 1, cs =>
    match cs with
    | [] => []
    | c :: rest =>
      if c = '<' then
        let inside := rest.takeWhile (fun d => d ≠ '>')
        if 0 < inside.length ∧ (rest.drop inside.length).head? = some '>' then
          stripTagsFuel fuel (rest.drop (inside.length + 1))
        else c :: stripTagsFuel fuel rest
      else c :: stripTagsFuel fuel rest

/-- The apostrophe character, written by code point as JS writes it in
the entity `&#39;`. -/
def apostropheChar : Char :=
  Char.ofNat 39

/-- Embedding of `stripHtml`: drop tags, decode the six fixed HTML
entities, trim surrounding whitespace. -/
def stripHtml (raw : String) : String :=
  let noTags : String := ⟨stripTagsFuel raw.data.length raw.data⟩
  let s1 := replaceAll noTags "&lt;" "<"
  let s2 := replaceAll s1 "&gt;" ">"
  let s3 := replaceAll s2 "&amp;" "&"
  let s4 := replaceAll s3 "&quot;" "\""
  let s5 := replaceAll s4 ⟨['&', '#', '3', '9', apostropheChar]⟩ ⟨[apostropheChar]⟩
  let s6 := replaceAll s5 "&nbsp;" " "
  ⟨((s6.data.dropWhile Char.isWhitespace).reverse.dropWhile Char.isWhitespace).reverse⟩

/-- String suffix test. -/
def strEndsWithB (s suffix : String) : Bool :=
  suffix.data.isSuffixOf s.data

/-- Embedding of `filenameToUrl`: replace a `.rst`/`.txt`/`.md` extension
with `.html` and prefix the base path. -/
def filenameToUrl (basePath filename : String) : String :=
  let htmlPath : String :=
    if strEndsWithB filename ".rst" then
      ⟨filename.data.take (filename.data.length - 4) ++ ".html".data⟩
    else if strEndsWithB filename ".txt" then
      ⟨filename.data.take (filename.data.length - 4) ++ ".html".data⟩
    else if strEndsWithB filename ".md" then
      ⟨filename.data.take (filename.data.length - 3) ++ ".html".data⟩
    else filename
  basePath ++ "/" ++ htmlPath

/-- One step of `mergeInvertedIndex`: create the accumulator entry for a
new term or push onto the existing one (`hasOwnProperty` guard on a
null-prototype object: plain key presence). -/
def appendTermEntry (acc : List (String × List String)) (term : String)
    (docIds : List String) : List (String × List String) :=
  match alookup acc term with
  | none => acc ++ [(term, docIds)]
  | some old => aset acc term (old ++ docIds)

/-- Embedding of `mergeInvertedIndex`. -/
def mergeInvertedIndex (acc : List (String × List String))
    (fragment : List (String × Posting)) (projectId : String) :
    List (String × List String) :=
  fragment.foldl
    (fun a p =>
      appendTermEntry a p.1 ((toDocIndexArray p.2).map (mkDocId projectId)))
    acc

/-- Embedding of the `alltitles` merge loop; `anchor || null` maps an
empty-string anchor to `null`. -/
def mergeAllTitles (acc : List (String × List TitleEntry))
    (fragment : List (String × List (ℕ × Option String)))
    (projectId : String) : List (String × List TitleEntry) :=
  fragment.foldl
    (fun a p =>
      let mapped : List TitleEntry :=
        p.2.map fun e =>
          ⟨mkDocId projectId e.1,
           match e.2 with
           | some an => if an = "" then none else some an
           | none => none⟩
      match alookup a p.1 with
      | none => a ++ [(p.1, mapped)]
      | some old => aset a p.1 (old ++ mapped))
    acc

/-- The merged snapshot (schema tag `version` held as written; the
`generatedAt` timestamp is not modelled). -/
structure Snapshot where
  version : String
  projects : List ProjectMeta
  documents : List DocumentRecord
  terms : List (String × List String)
  titleterms : List (String × List String)
  alltitles : List (String × List TitleEntry)

/-- A directory that qualified: it had a parsed `searchindex.js`. -/
structure QualifiedProject where
  name : String
  sphinx : SphinxIndex
  hasLocalIndexHtml : Bool
  info : ProjectInfo

/-- The document records one project contributes, in local-index order. -/
def docsOfProject (q : QualifiedProject) : List DocumentRecord :=
  let rb := resolveBasePath q.name q.hasLocalIndexHtml q.info
  (List.range q.sphinx.filenames.length).map fun i =>
    ⟨mkDocId q.name i, q.name, q.sphinx.filenames.getD i "",
     stripHtml (q.sphinx.titles.getD i ""),
     filenameToUrl rb.docsPath (q.sphinx.filenames.getD i "")⟩

/-- The project metadata entry one project contributes. -/
def projectMetaOf (q : QualifiedProject) : ProjectMeta :=
  let rb := resolveBasePath q.name q.hasLocalIndexHtml q.info
  ⟨q.name, rb.basePath, rb.docsPath, rb.isExternal,
   q.sphinx.filenames.length, rb.suggestedLinks⟩

/-- The final determinism pass: sort every posting list. -/
def sortValues (m : List (String × List String)) :
    List (String × List String) :=
  m.map fun kv => (kv.1, insertionSortB strLeB kv.2)

/-- The merge over the qualifying projects, in their processed order: the
per-project loop of `main` appends to each accumulator independently, so
it is presented here as one fold per accumulator. -/
def buildSnapshot (qs : List QualifiedProject) : Snapshot :=
  let documents := (qs.map docsOfProject).flatten
  let terms0 := qs.foldl (fun acc q => mergeInvertedIndex acc q.sphinx.terms q.name) []
  let titleterms0 := qs.foldl (fun acc q => mergeInvertedIndex acc q.sphinx.titleterms q.name) []
  let alltitles := qs.foldl (fun acc q => mergeAllTitles acc q.sphinx.alltitles q.name) []
  ⟨"1", qs.map projectMetaOf, documents, sortValues terms0,
   sortValues titleterms0, alltitles⟩

/-- The qualification test of `main`: the directory has a raw index. -/
def dirQualified (d : DirEntry) : Option QualifiedProject :=
  d.sphinx.map fun s => ⟨d.name, s, d.hasLocalIndexHtml, d.info⟩

/-- Embedding of `main`: sort the discovered directories by name, keep
those with a `searchindex.js`, exit cleanly writing nothing when none
qualifies, else build and write the snapshot.  `none` is the clean
"nothing to build" exit (`process.exit(0)` after a warning). -/
def combineMain (dirs : List DirEntry) : Option Snapshot :=
  let sorted := insertionSortB (fun a b : DirEntry => strLeB a.name b.name) dirs
  let qs := sorted.filterMap dirQualified
  if qs.isEmpty then none else some (buildSnapshot qs)

/-! ## Lemmas about `addScore` and the score folds -/

theorem addScore_of_scope_false {p : Option String} {d : String}
    (st : SState K) (w : K) (s : String) (h : scopeOk p d = false) :
    addScore p st d w s = st := by
  simp [addScore, h]

theorem addScore_sections (p : Option String) (st : SState K) (d : String)
    (w : K) (s : String) : (addScore p st d w s).sections = st.sections := by
  unfold addScore
  split <;> rfl

theorem addScore_scores_lookup_self {p : Option String} {d : String}
    (st : SState K) (w : K) (s : String) (h : scopeOk p d = true) :
    alookup (addScore p st d w s).scores d = some (agetD st.scores d 0 + w) := by
  simp [addScore, h, alookup_aset_self]

theorem addScore_scores_lookup_ne {p : Option String} {d x : String}
    (st : SState K) (w : K) (s : String) (h : x ≠ d) :
    alookup (addScore p st d w s).scores x = alookup st.scores x := by
  unfold addScore
  split
  · exact alookup_aset_ne _ _ _ _ (Ne.symm h)
  · rfl

theorem addScore_scores_eq {p : Option String} {d : String}
    (st : SState K) (w : K) (s : String) (h : scopeOk p d = true) :
    (addScore p st d w s).scores = aset st.scores d (agetD st.scores d 0 + w) := by
  simp [addScore, h]

theorem addScore_tms_eq {p : Option String} {d : String}
    (st : SState K) (w : K) (s : String) (h : scopeOk p d = true) :
    (addScore p st d w s).tms = insStem st.tms d s := by
  simp [addScore, h]

theorem addScore_scores_mem {p : Option String} {d x : String}
    (st : SState K) (w : K) (s : String) :
    x ∈ akeys (addScore p st d w s).scores ↔
      x ∈ akeys st.scores ∨ (scopeOk p d = true ∧ x = d) := by
  by_cases h : scopeOk p d = true
  · rw [addScore_scores_eq st w s h, mem_akeys_aset]
    simp [h]
  · rw [addScore_of_scope_false st w s (by simpa using h)]
    simp [h]

theorem addScore_tms_lookup_self {p : Option String} {d : String}
    (st : SState K) (w : K) (s : String) (h : scopeOk p d = true) :
    alookup (addScore p st d w s).tms d
      = some (insertIfAbsent (agetD st.tms d []) s) := by
  simp [addScore, h, insStem, alookup_aset_self]

theorem addScore_tms_lookup_ne {p : Option String} {d x : String}
    (st : SState K) (w : K) (s : String) (h : x ≠ d) :
    alookup (addScore p st d w s).tms x = alookup st.tms x := by
  unfold addScore
  split
  · exact alookup_aset_ne _ _ _ _ (Ne.symm h)
  · rfl

theorem addScore_tms_mem {p : Option String} {d x : String}
    (st : SState K) (w : K) (s : String) :
    x ∈ akeys (addScore p st d w s).tms ↔
      x ∈ akeys st.tms ∨ (scopeOk p d = true ∧ x = d) := by
  by_cases h : scopeOk p d = true
  · rw [addScore_tms_eq st w s h, insStem, mem_akeys_aset]
    simp [h]
  · rw [addScore_of_scope_false st w s (by simpa using h)]
    simp [h]

theorem agetD_scores_addScore_ne {p : Option String} {d x : String}
    (st : SState K) (w : K) (s : String) (h : x ≠ d) :
    agetD (addScore p st d w s).scores x (0 : K) = agetD st.scores x 0 := by
  unfold agetD
  rw [addScore_scores_lookup_ne _ _ _ h]

theorem agetD_tms_addScore_ne {p : Option String} {d x : String}
    (st : SState K) (w : K) (s : String) (h : x ≠ d) :
    agetD (addScore p st d w s).tms x ([] : List String) = agetD st.tms x [] := by
  unfold agetD
  rw [addScore_tms_lookup_ne _ _ _ h]

/-- The structural invariant the claims rely on: in every state `search`
builds, `scores` and `tokenMatchSets` hold exactly the same keys in the
same order, and the keys are duplicate-free. -/
def keysInv (st : SState K) : Prop :=
  akeys st.scores = akeys st.tms ∧ (akeys st.scores).Nodup

theorem keysInv_empty : keysInv (emptyState (K := K)) :=
  ⟨rfl, List.nodup_nil⟩

theorem addScore_keysInv {p : Option String} {d : String}
    (st : SState K) (w : K) (s : String) (h : keysInv st) :
    keysInv (addScore p st d w s) := by
  unfold addScore
  split
  · constructor
    · show akeys (aset st.scores d _) = akeys (insStem st.tms d s)
      rw [insStem, akeys_aset, akeys_aset, h.1]
    · show (akeys (aset st.scores d _)).Nodup
      exact akeys_aset_nodup _ _ _ h.2
  · exact h

theorem foldl_addScore_sections (p : Option String) (w : K) (s : String)
    (L : List String) (st : SState K) :
    ((L.foldl (fun acc d => addScore p acc d w s) st)).sections = st.sections := by
  induction L generalizing st with
  | nil => rfl
  | cons d rest ih => rw [List.foldl_cons, ih, addScore_sections]

theorem foldl_addScore_keysInv (p : Option String) (w : K) (s : String)
    (L : List String) (st : SState K) (h : keysInv st) :
    keysInv (L.foldl (fun acc d => addScore p acc d w s) st) := by
  induction L generalizing st with
  | nil => exact h
  | cons d rest ih => exact ih _ (addScore_keysInv _ _ _ h)

theorem foldl_addScore_scores_mem (p : Option String) (w : K) (s : String)
    (L : List String) (st : SState K) (x : String) :
    x ∈ akeys ((L.foldl (fun acc d => addScore p acc d w s) st).scores) ↔
      x ∈ akeys st.scores ∨ (scopeOk p x = true ∧ x ∈ L) := by
  induction L generalizing st with
  | nil => simp
  | cons d rest ih =>
    rw [List.foldl_cons, ih, addScore_scores_mem]
    constructor
    · rintro ((hm | ⟨hs, rfl⟩) | ⟨hs, hm⟩)
      · exact Or.inl hm
      · exact Or.inr ⟨hs, List.mem_cons_self _ _⟩
      · exact Or.inr ⟨hs, List.mem_cons_of_mem _ hm⟩
    · rintro (hm | ⟨hs, hm⟩)
      · exact Or.inl (Or.inl hm)
      · rcases List.mem_cons.mp hm with rfl | hm
        · exact Or.inl (Or.inr ⟨hs, rfl⟩)
        · exact Or.inr ⟨hs, hm⟩

theorem foldl_addScore_scores_lookup_not_mem (p : Option String) (w : K)
    (s : String) (L : List String) (st : SState K) (x : String) (h : x ∉ L) :
    alookup ((L.foldl (fun acc d => addScore p acc d w s) st).scores) x
      = alookup st.scores x := by
  induction L generalizing st with
  | nil => rfl
  | cons d rest ih =>
    rw [List.foldl_cons, ih _ (fun hm => h (List.mem_cons_of_mem _ hm)),
      addScore_scores_lookup_ne _ _ _ (fun hx => h (by rw [hx]; exact List.mem_cons_self _ _))]

theorem foldl_addScore_scores_lookup_mem (p : Option String) (w : K)
    (s : String) (L : List String) (st : SState K) (x : String)
    (hnd : L.Nodup) (hx : x ∈ L) (hs : scopeOk p x = true) :
    alookup ((L.foldl (fun acc d => addScore p acc d w s) st).scores) x
      = some (agetD st.scores x 0 + w) := by
  induction L generalizing st with
  | nil => cases hx
  | cons d rest ih =>
    have hp := List.nodup_cons.mp hnd
    rcases List.mem_cons.mp hx with rfl | hm
    · rw [List.foldl_cons,
        foldl_addScore_scores_lookup_not_mem _ _ _ _ _ _ hp.1,
        addScore_scores_lookup_self _ _ _ hs]
    · have hne : x ≠ d := fun he => hp.1 (he ▸ hm)
      rw [List.foldl_cons, ih _ hp.2 hm, agetD_scores_addScore_ne _ _ _ hne]

theorem foldl_addScore_tms_lookup_not_mem (p : Option String) (w : K)
    (s : String) (L : List String) (st : SState K) (x : String) (h : x ∉ L) :
    alookup ((L.foldl (fun acc d => addScore p acc d w s) st).tms) x
      = alookup st.tms x := by
  induction L generalizing st with
  | nil => rfl
  | cons d rest ih =>
    rw [List.foldl_cons, ih _ (fun hm => h (List.mem_cons_of_mem _ hm)),
      addScore_tms_lookup_ne _ _ _ (fun hx => h (by rw [hx]; exact List.mem_cons_self _ _))]

theorem foldl_addScore_tms_lookup_mem (p : Option String) (w : K)
    (s : String) (L : List String) (st : SState K) (x : String)
    (hnd : L.Nodup) (hx : x ∈ L) (hs : scopeOk p x = true) :
    alookup ((L.foldl (fun acc d => addScore p acc d w s) st).tms) x
      = some (insertIfAbsent (agetD st.tms x []) s) := by
  induction L generalizing st with
  | nil => cases hx
  | cons d rest ih =>
    have hp := List.nodup_cons.mp hnd
    rcases List.mem_cons.mp hx with rfl | hm
    · rw [List.foldl_cons,
        foldl_addScore_tms_lookup_not_mem _ _ _ _ _ _ hp.1,
        addScore_tms_lookup_self _ _ _ hs]
    · have hne : x ≠ d := fun he => hp.1 (he ▸ hm)
      rw [List.foldl_cons, ih _ hp.2 hm, agetD_tms_addScore_ne _ _ _ hne]

/-! ## Lemmas about `processToken` -/

theorem foldl_if_pos_length (l : List α) (f : β → α → β) (st : β) :
    (if 0 < l.length then l.foldl f st else st) = l.foldl f st := by
  cases l <;> simp

/-- `processToken` when at least one exact lookup hit: the two exact
folds, no fuzzy fallback. -/
theorem processToken_eq_of_exact (P : EngineParams K) (idx : SearchIndex)
    (proj : Option String) (st : SState K) (t : Token)
    (h : ¬((getTitleTermDocs idx t.stem).length = 0 ∧ (getTermDocs idx t.stem).length = 0)) :
    processToken P idx proj st t =
      (getTermDocs idx t.stem).foldl
        (fun s d => addScore proj s d (BODY_WEIGHT K * P.idfF (getTermDocs idx t.stem).length) t.stem)
        ((getTitleTermDocs idx t.stem).foldl
          (fun s d => addScore proj s d (TITLE_WEIGHT K * P.idfF (getTitleTermDocs idx t.stem).length) t.stem)
          st) := by
  simp only [processToken, if_neg h]
  rw [foldl_if_pos_length, foldl_if_pos_length]

/-- `processToken` when both exact lookups missed: the two fuzzy
fallback folds. -/
theorem processToken_eq_of_empty (P : EngineParams K) (idx : SearchIndex)
    (proj : Option String) (st : SState K) (t : Token)
    (h1 : getTitleTermDocs idx t.stem = []) (h2 : getTermDocs idx t.stem = []) :
    processToken P idx proj st t =
      (match fuzzyMatch P.jw t.stem (getAllTermKeys idx) with
       | none => (fun s => s)
       | some (key, similarity) => fun s =>
         (getTermDocs idx key).foldl
           (fun acc d => addScore proj acc d
             (BODY_WEIGHT K * P.idfF (getTermDocs idx key).length * similarity) t.stem) s)
      ((match fuzzyMatch P.jw t.stem (getAllTitleTermKeys idx) with
        | none => (fun s => s)
        | some (key, similarity) => fun s =>
          (getTitleTermDocs idx key).foldl
            (fun acc d => addScore proj acc d
              (TITLE_WEIGHT K * P.idfF (getTitleTermDocs idx key).length * similarity) t.stem) s)
       st) := by
  simp only [processToken, h1, h2, List.length_nil, lt_irrefl, if_false, and_self, if_true]
  rcases fuzzyMatch P.jw t.stem (getAllTitleTermKeys idx) with _ | ⟨key, sim⟩ <;>
    rcases fuzzyMatch P.jw t.stem (getAllTermKeys idx) with _ | ⟨key2, sim2⟩ <;> rfl

/-- `processToken` when both exact lookups missed and both fuzzy lookups
found nothing: a no-op. -/
theorem processToken_eq_self (P : EngineParams K) (idx : SearchIndex)
    (proj : Option String) (st : SState K) (t : Token)
    (h1 : getTitleTermDocs idx t.stem = []) (h2 : getTermDocs idx t.stem = [])
    (hf1 : fuzzyMatch P.jw t.stem (getAllTitleTermKeys idx) = none)
    (hf2 : fuzzyMatch P.jw t.stem (getAllTermKeys idx) = none) :
    processToken P idx proj st t = st := by
  rw [processToken_eq_of_empty P idx proj st t h1 h2, hf1, hf2]

/-- The doc ids one token's iteration can touch (the same lists under
every scope, since the fuzzy decision depends only on posting
emptiness). -/
def tokenContrib (P : EngineParams K) (idx : SearchIndex) (t : Token) :
    List String :=
  getTitleTermDocs idx t.stem ++ getTermDocs idx t.stem ++
    (if (getTitleTermDocs idx t.stem).length = 0 ∧ (getTermDocs idx t.stem).length = 0 then
      (match fuzzyMatch P.jw t.stem (getAllTitleTermKeys idx) with
       | none => []
       | some (key, _) => getTitleTermDocs idx key) ++
      (match fuzzyMatch P.jw t.stem (getAllTermKeys idx) with
       | none => []
       | some (key, _) => getTermDocs idx key)
    else [])

theorem processToken_scores_mem (P : EngineParams K) (idx : SearchIndex)
    (proj : Option String) (st : SState K) (t : Token) (x : String) :
    x ∈ akeys (processToken P idx proj st t).scores ↔
      x ∈ akeys st.scores ∨ (scopeOk proj x = true ∧ x ∈ tokenContrib P idx t) := by
  by_cases h : (getTitleTermDocs idx t.stem).length = 0 ∧ (getTermDocs idx t.stem).length = 0
  · have h1 : getTitleTermDocs idx t.stem = [] := List.length_eq_zero.mp h.1
    have h2 : getTermDocs idx t.stem = [] := List.length_eq_zero.mp h.2
    rw [processToken_eq_of_empty P idx proj st t h1 h2]
    unfold tokenContrib
    rw [if_pos h, h1, h2]
    rcases hft : fuzzyMatch P.jw t.stem (getAllTitleTermKeys idx) with _ | ⟨key, sim⟩ <;>
      rcases hfb : fuzzyMatch P.jw t.stem (getAllTermKeys idx) with _ | ⟨key2, sim2⟩ <;>
      simp [foldl_addScore_scores_mem, List.mem_append, or_assoc, and_or_left]
  · rw [processToken_eq_of_exact P idx proj st t h]
    unfold tokenContrib
    rw [if_neg h]
    simp [foldl_addScore_scores_mem, List.mem_append, or_assoc, and_or_left]

theorem processToken_sections (P : EngineParams K) (idx : SearchIndex)
    (proj : Option String) (st : SState K) (t : Token) :
    (processToken P idx proj st t).sections = st.sections := by
  by_cases h : (getTitleTermDocs idx t.stem).length = 0 ∧ (getTermDocs idx t.stem).length = 0
  · rw [processToken_eq_of_empty P idx proj st t (List.length_eq_zero.mp h.1)
      (List.length_eq_zero.mp h.2)]
    rcases fuzzyMatch P.jw t.stem (getAllTitleTermKeys idx) with _ | ⟨key, sim⟩ <;>
      rcases fuzzyMatch P.jw t.stem (getAllTermKeys idx) with _ | ⟨key2, sim2⟩ <;>
      simp [foldl_addScore_sections]
  · rw [processToken_eq_of_exact P idx proj st t h]
    simp [foldl_addScore_sections]

theorem processToken_keysInv (P : EngineParams K) (idx : SearchIndex)
    (proj : Option String) (st : SState K) (t : Token) (h : keysInv st) :
    keysInv (processToken P idx proj st t) := by
  by_cases hc : (getTitleTermDocs idx t.stem).length = 0 ∧ (getTermDocs idx t.stem).length = 0
  · rw [processToken_eq_of_empty P idx proj st t (List.length_eq_zero.mp hc.1)
      (List.length_eq_zero.mp hc.2)]
    rcases fuzzyMatch P.jw t.stem (getAllTitleTermKeys idx) with _ | ⟨key, sim⟩ <;>
      rcases fuzzyMatch P.jw t.stem (getAllTermKeys idx) with _ | ⟨key2, sim2⟩ <;>
      simp only [] <;>
      [exact h;
       exact foldl_addScore_keysInv _ _ _ _ _ h;
       exact foldl_addScore_keysInv _ _ _ _ _ h;
       exact foldl_addScore_keysInv _ _ _ _ _ (foldl_addScore_keysInv _ _ _ _ _ h)]
  · rw [processToken_eq_of_exact P idx proj st t hc]
    exact foldl_addScore_keysInv _ _ _ _ _ (foldl_addScore_keysInv _ _ _ _ _ h)

/-! ## Lemmas about the section-title loop -/

theorem headingStep_scores (proj : Option String) (bonus : K) (stem0 title : String)
    (s : SState K) (e : TitleEntry) :
    (headingStep proj bonus stem0 title s e).scores
      = (addScore proj s e.docId bonus stem0).scores := by
  unfold headingStep
  by_cases h : scopeOk proj e.docId = false
  · rw [if_pos h, addScore_of_scope_false _ _ _ h]
  · rw [if_neg h]

theorem headingStep_tms (proj : Option String) (bonus : K) (stem0 title : String)
    (s : SState K) (e : TitleEntry) :
    (headingStep proj bonus stem0 title s e).tms
      = (addScore proj s e.docId bonus stem0).tms := by
  unfold headingStep
  by_cases h : scopeOk proj e.docId = false
  · rw [if_pos h, addScore_of_scope_false _ _ _ h]
  · rw [if_neg h]

/-- The fold of the section loop drives `scores` exactly as an `addScore`
fold over the entry doc ids does (the extra `sections` bookkeeping never
feeds back into scores). -/
theorem heading_foldl_scores (proj : Option String) (bonus : K)
    (stem0 title : String) (entries : List TitleEntry) (st st' : SState K)
    (h : st.scores = st'.scores) :
    ((entries.foldl (headingStep proj bonus stem0 title) st)).scores
      = ((entries.map TitleEntry.docId).foldl
          (fun s d => addScore proj s d bonus stem0) st').scores := by
  induction entries generalizing st st' with
  | nil => exact h
  | cons e rest ih =>
    rw [List.foldl_cons, List.map_cons, List.foldl_cons]
    refine ih _ _ ?_
    rw [headingStep_scores]
    by_cases hsc : scopeOk proj e.docId = true
    · rw [addScore_scores_eq _ _ _ hsc, addScore_scores_eq _ _ _ hsc, h]
    · have hf : scopeOk proj e.docId = false := by simpa using hsc
      rw [addScore_of_scope_false _ _ _ hf, addScore_of_scope_false _ _ _ hf, h]

/-- Same transfer for `tokenMatchSets`. -/
theorem heading_foldl_tms (proj : Option String) (bonus : K)
    (stem0 title : String) (entries : List TitleEntry) (st st' : SState K)
    (h : st.tms = st'.tms) :
    ((entries.foldl (headingStep proj bonus stem0 title) st)).tms
      = ((entries.map TitleEntry.docId).foldl
          (fun s d => addScore proj s d bonus stem0) st').tms := by
  induction entries generalizing st st' with
  | nil => exact h
  | cons e rest ih =>
    rw [List.foldl_cons, List.map_cons, List.foldl_cons]
    refine ih _ _ ?_
    rw [headingStep_tms]
    by_cases hsc : scopeOk proj e.docId = true
    · rw [addScore_tms_eq _ _ _ hsc, addScore_tms_eq _ _ _ hsc, h]
    · have hf : scopeOk proj e.docId = false := by simpa using hsc
      rw [addScore_of_scope_false _ _ _ hf, addScore_of_scope_false _ _ _ hf, h]

theorem headingStep_sections_lookup_ne (proj : Option String) (bonus : K)
    (stem0 title : String) (s : SState K) (e : TitleEntry) (x : String)
    (h : x ≠ e.docId) :
    alookup (headingStep proj bonus stem0 title s e).sections x
      = alookup s.sections x := by
  unfold headingStep
  by_cases hsc : scopeOk proj e.docId = false
  · rw [if_pos hsc]
  · rw [if_neg hsc]
    show alookup (aset _ e.docId _) x = _
    rw [alookup_aset_ne _ _ _ _ (Ne.symm h), addScore_sections]

theorem heading_foldl_sections_lookup_not_mem (proj : Option String)
    (bonus : K) (stem0 title : String) (entries : List TitleEntry)
    (st : SState K) (x : String) (h : x ∉ entries.map TitleEntry.docId) :
    alookup ((entries.foldl (headingStep proj bonus stem0 title) st)).sections x
      = alookup st.sections x := by
  induction entries generalizing st with
  | nil => rfl
  | cons e rest ih =>
    rw [List.foldl_cons, ih _ (fun hm => h (List.mem_cons_of_mem _ hm)),
      headingStep_sections_lookup_ne _ _ _ _ _ _ _
        (fun hx => h (by rw [hx]; exact List.mem_cons_self _ _))]

theorem heading_foldl_sections_lookup_mem (proj : Option String)
    (bonus : K) (stem0 title : String) (entries : List TitleEntry)
    (st : SState K) (d : String) (a : Option String)
    (hnd : (entries.map TitleEntry.docId).Nodup) (hmem : (⟨d, a⟩ : TitleEntry) ∈ entries)
    (hsc : scopeOk proj d = true) :
    alookup ((entries.foldl (headingStep proj bonus stem0 title) st)).sections d
      = some (agetD st.sections d [] ++ [⟨title, a⟩]) := by
  induction entries generalizing st with
  | nil => cases hmem
  | cons e rest ih =>
    rw [List.map_cons] at hnd
    have hp := List.nodup_cons.mp hnd
    rcases List.mem_cons.mp hmem with rfl | hm
    · rw [List.foldl_cons, heading_foldl_sections_lookup_not_mem _ _ _ _ _ _ _ hp.1]
      unfold headingStep
      rw [if_neg (by simp [hsc])]
      show alookup (aset _ _ _) _ = _
      rw [alookup_aset_self, addScore_sections]
    · have hne : d ≠ e.docId := fun he => hp.1 (by
        rw [← he]
        exact List.mem_map_of_mem TitleEntry.docId hm)
      rw [List.foldl_cons, ih _ hp.2 hm]
      unfold agetD
      rw [headingStep_sections_lookup_ne _ _ _ _ _ _ _ hne]

theorem heading_foldl_keysInv (proj : Option String) (bonus : K)
    (stem0 title : String) (entries : List TitleEntry) (st : SState K)
    (h : keysInv st) :
    keysInv ((entries.foldl (headingStep proj bonus stem0 title) st)) := by
  have hfold := foldl_addScore_keysInv proj bonus stem0
    (entries.map TitleEntry.docId) st h
  constructor
  · rw [heading_foldl_scores proj bonus stem0 title entries st st rfl,
      heading_foldl_tms proj bonus stem0 title entries st st rfl]
    exact hfold.1
  · rw [heading_foldl_scores proj bonus stem0 title entries st st rfl]
    exact hfold.2

/-- The doc ids one heading's iteration can touch. -/
def headingContrib (tokens : List Token) (entry : String × List TitleEntry) :
    List String :=
  if (headingMatches tokens (toLowerStr entry.1)).1 = 0 then []
  else entry.2.map TitleEntry.docId

theorem processHeading_eq_of_zero (proj : Option String) (tokens : List Token)
    (st : SState K) (entry : String × List TitleEntry)
    (h : (headingMatches tokens (toLowerStr entry.1)).1 = 0) :
    processHeading proj tokens st entry = st := by
  simp [processHeading, h]

theorem processHeading_eq_of_pos (proj : Option String) (tokens : List Token)
    (st : SState K) (entry : String × List TitleEntry)
    (h : (headingMatches tokens (toLowerStr entry.1)).1 ≠ 0) :
    processHeading proj tokens st entry
      = entry.2.foldl
          (headingStep proj
            (SECTION_WEIGHT K * ((headingMatches tokens (toLowerStr entry.1)).1 : K))
            ((headingMatches tokens (toLowerStr entry.1)).2.headD "") entry.1)
          st := by
  simp [processHeading, h]

theorem processHeading_scores_mem (proj : Option String) (tokens : List Token)
    (st : SState K) (entry : String × List TitleEntry) (x : String) :
    x ∈ akeys (processHeading proj tokens st entry).scores ↔
      x ∈ akeys st.scores ∨ (scopeOk proj x = true ∧ x ∈ headingContrib tokens entry) := by
  by_cases h : (headingMatches tokens (toLowerStr entry.1)).1 = 0
  · rw [processHeading_eq_of_zero proj tokens st entry h]
    simp [headingContrib, h]
  · rw [processHeading_eq_of_pos proj tokens st entry h]
    rw [show akeys ((entry.2.foldl (headingStep proj _ _ entry.1) st)).scores
        = akeys (((entry.2.map TitleEntry.docId).foldl
            (fun s d => addScore proj s d
              (SECTION_WEIGHT K * ((headingMatches tokens (toLowerStr entry.1)).1 : K))
              ((headingMatches tokens (toLowerStr entry.1)).2.headD "")) st)).scores
      from congrArg akeys (heading_foldl_scores _ _ _ _ _ _ _ rfl)]
    rw [foldl_addScore_scores_mem]
    simp [headingContrib, h]

theorem processHeading_keysInv (proj : Option String) (tokens : List Token)
    (st : SState K) (entry : String × List TitleEntry) (h : keysInv st) :
    keysInv (processHeading proj tokens st entry) := by
  by_cases hz : (headingMatches tokens (toLowerStr entry.1)).1 = 0
  · rwa [processHeading_eq_of_zero proj tokens st entry hz]
  · rw [processHeading_eq_of_pos proj tokens st entry hz]
    exact heading_foldl_keysInv _ _ _ _ _ _ h

/-! ## Lemmas about the all-tokens bonus pass -/

/-- With at most one distinct stem the bonus pass multiplies nothing. -/
theorem bonusApply_of_le_one (n : ℕ) (tms : List (String × List String))
    (sc : List (String × K)) (h : n ≤ 1) : bonusApply n tms sc = sc := by
  induction tms generalizing sc with
  | nil => rfl
  | cons p rest ih =>
    unfold bonusApply
    rw [List.foldl_cons, if_neg (by omega : ¬(1 < n ∧ p.2.length = n))]
    exact ih sc

theorem bonusApply_cons (n : ℕ) (k : String) (ms : List String)
    (rest : List (String × List String)) (sc : List (String × K)) :
    bonusApply n ((k, ms) :: rest) sc
      = bonusApply n rest
          (if 1 < n ∧ ms.length = n then
            aset sc k (agetD sc k 0 * ALL_TOKENS_BONUS K)
          else sc) := by
  rfl

theorem bonusApply_lookup_none (n : ℕ) (tms : List (String × List String))
    (sc : List (String × K)) (d : String) (h : alookup tms d = none) :
    alookup (bonusApply n tms sc) d = alookup sc d := by
  induction tms generalizing sc with
  | nil => rfl
  | cons p rest ih =>
    obtain ⟨k, ms⟩ := p
    have hk : ¬ k = d := by
      intro he
      rw [alookup, if_pos he] at h
      cases h
    have hrest : alookup rest d = none := by rwa [alookup, if_neg hk] at h
    rw [bonusApply_cons, ih _ hrest]
    by_cases hcond : 1 < n ∧ ms.length = n
    · rw [if_pos hcond]
      exact alookup_aset_ne _ _ _ _ hk
    · rw [if_neg hcond]

theorem bonusApply_lookup_some (n : ℕ) (tms : List (String × List String))
    (sc : List (String × K)) (d : String) (ms0 : List String)
    (hnd : (akeys tms).Nodup) (h : alookup tms d = some ms0) :
    alookup (bonusApply n tms sc) d =
      if 1 < n ∧ ms0.length = n then some (agetD sc d 0 * ALL_TOKENS_BONUS K)
      else alookup sc d := by
  induction tms generalizing sc with
  | nil => cases h
  | cons p rest ih =>
    obtain ⟨k, ms⟩ := p
    rw [akeys, List.map_cons] at hnd
    have hp := List.nodup_cons.mp hnd
    by_cases hdk : k = d
    · subst hdk
      rw [alookup, if_pos rfl] at h
      have hms : ms = ms0 := Option.some.inj h
      have hrest : alookup rest k = none :=
        alookup_eq_none_of_not_mem _ _ hp.1
      rw [bonusApply_cons, bonusApply_lookup_none n rest _ k hrest, hms]
      by_cases hcond : 1 < n ∧ ms0.length = n
      · rw [if_pos hcond, if_pos hcond, alookup_aset_self]
      · rw [if_neg hcond, if_neg hcond]
    · have h' : alookup rest d = some ms0 := by rwa [alookup, if_neg hdk] at h
      rw [bonusApply_cons, ih _ hp.2 h']
      have h1 : alookup
          (if 1 < n ∧ ms.length = n then
            aset sc k (agetD sc k 0 * ALL_TOKENS_BONUS K) else sc) d
          = alookup sc d := by
        split
        · exact alookup_aset_ne _ _ _ _ hdk
        · rfl
      have h2 : agetD
          (if 1 < n ∧ ms.length = n then
            aset sc k (agetD sc k 0 * ALL_TOKENS_BONUS K) else sc) d (0 : K)
          = agetD sc d 0 :=
        congrArg (fun o => o.getD 0) h1
      rw [h1, h2]

theorem bonusApply_akeys (n : ℕ) (tms : List (String × List String))
    (sc : List (String × K)) (hsub : ∀ x ∈ akeys tms, x ∈ akeys sc) :
    akeys (bonusApply n tms sc) = akeys sc := by
  induction tms generalizing sc with
  | nil => rfl
  | cons p rest ih =>
    unfold bonusApply at ih ⊢
    rw [List.foldl_cons]
    by_cases hcond : 1 < n ∧ p.2.length = n
    · rw [if_pos hcond]
      have hk : p.1 ∈ akeys sc := hsub p.1 (List.mem_cons_self _ _)
      have hkeys : akeys (aset sc p.1 (agetD sc p.1 0 * ALL_TOKENS_BONUS K)) = akeys sc := by
        rw [akeys_aset, if_pos hk]
      rw [ih _ (fun x hx => by
        rw [hkeys]
        exact hsub x (List.mem_cons_of_mem _ hx)), hkeys]
    · rw [if_neg hcond]
      exact ih _ (fun x hx => hsub x (List.mem_cons_of_mem _ hx))

/-! ## Lemmas about `buildResults` -/

theorem buildResults_foldl_map_docId (idx : SearchIndex) (st : SState K)
    (l : List (String × K)) (acc : List (SearchResult K)) :
    ((l.foldl
        (fun acc p =>
          match alookup (docMap idx) p.1 with
          | none => acc
          | some doc =>
            acc ++ [⟨p.1, doc.project, doc.title, doc.url, p.2,
                     agetD st.matched p.1 [], agetD st.sections p.1 []⟩])
        acc)).map SearchResult.docId
      = acc.map SearchResult.docId
        ++ (l.map Prod.fst).filter (fun k => (alookup (docMap idx) k).isSome) := by
  induction l generalizing acc with
  | nil => simp
  | cons p rest ih =>
    obtain ⟨k, v⟩ := p
    rw [List.foldl_cons]
    cases hdoc : alookup (docMap idx) k with
    | none =>
      rw [List.map_cons, List.filter_cons]
      simp only [hdoc, Option.isSome_none]
      exact ih acc
    | some doc =>
      rw [List.map_cons, List.filter_cons]
      simp only [hdoc, Option.isSome_some, if_pos]
      rw [ih _]
      simp

theorem buildResults_map_docId (idx : SearchIndex) (st : SState K) :
    (buildResults idx st).map SearchResult.docId
      = (akeys st.scores).filter (fun k => (alookup (docMap idx) k).isSome) := by
  unfold buildResults
  rw [buildResults_foldl_map_docId]
  rfl

theorem buildResults_foldl_resolve (idx : SearchIndex) (st : SState K)
    (l : List (String × K)) (acc : List (SearchResult K)) (r : SearchResult K)
    (hr : r ∈ l.foldl
        (fun acc p =>
          match alookup (docMap idx) p.1 with
          | none => acc
          | some doc =>
            acc ++ [⟨p.1, doc.project, doc.title, doc.url, p.2,
                     agetD st.matched p.1 [], agetD st.sections p.1 []⟩])
        acc) :
    r ∈ acc ∨ ∃ doc, alookup (docMap idx) r.docId = some doc ∧
      r.project = doc.project ∧ r.title = doc.title ∧ r.url = doc.url := by
  induction l generalizing acc with
  | nil => exact Or.inl hr
  | cons p rest ih =>
    rw [List.foldl_cons] at hr
    rcases hdoc : alookup (docMap idx) p.1 with _ | doc
    · rw [hdoc] at hr
      exact ih _ hr
    · rw [hdoc] at hr
      rcases ih _ hr with hacc | hfound
      · rcases List.mem_append.mp hacc with hacc | hsing
        · exact Or.inl hacc
        · right
          rcases List.mem_singleton.mp hsing with rfl
          exact ⟨doc, hdoc, rfl, rfl, rfl⟩
      · exact Or.inr hfound

theorem buildResults_resolve (idx : SearchIndex) (st : SState K)
    (r : SearchResult K) (hr : r ∈ buildResults idx st) :
    ∃ doc, alookup (docMap idx) r.docId = some doc ∧
      r.project = doc.project ∧ r.title = doc.title ∧ r.url = doc.url := by
  rcases buildResults_foldl_resolve idx st _ _ r hr with h | h
  · cases h
  · exact h

/-! ## Phase-level characterisations -/

theorem foldl_processToken_scores_mem (P : EngineParams K) (idx : SearchIndex)
    (proj : Option String) (toks : List Token) (st : SState K) (x : String) :
    x ∈ akeys ((toks.foldl (processToken P idx proj) st).scores) ↔
      x ∈ akeys st.scores ∨
        (scopeOk proj x = true ∧ ∃ t ∈ toks, x ∈ tokenContrib P idx t) := by
  induction toks generalizing st with
  | nil => simp
  | cons t rest ih =>
    rw [List.foldl_cons, ih, processToken_scores_mem]
    constructor
    · rintro ((hm | ⟨hs, hc⟩) | ⟨hs, t', ht', hc⟩)
      · exact Or.inl hm
      · exact Or.inr ⟨hs, t, List.mem_cons_self _ _, hc⟩
      · exact Or.inr ⟨hs, t', List.mem_cons_of_mem _ ht', hc⟩
    · rintro (hm | ⟨hs, t', ht', hc⟩)
      · exact Or.inl (Or.inl hm)
      · rcases List.mem_cons.mp ht' with rfl | ht'
        · exact Or.inl (Or.inr ⟨hs, hc⟩)
        · exact Or.inr ⟨hs, t', ht', hc⟩

theorem tokenPhase_scores_mem (P : EngineParams K) (idx : SearchIndex)
    (proj : Option String) (toks : List Token) (x : String) :
    x ∈ akeys ((tokenPhase P idx proj toks)).scores ↔
      scopeOk proj x = true ∧ ∃ t ∈ toks, x ∈ tokenContrib P idx t := by
  unfold tokenPhase
  rw [foldl_processToken_scores_mem]
  simp [emptyState, akeys]

theorem foldl_processHeading_scores_mem (proj : Option String)
    (toks : List Token) (entries : List (String × List TitleEntry))
    (st : SState K) (x : String) :
    x ∈ akeys ((entries.foldl (processHeading proj toks) st).scores) ↔
      x ∈ akeys st.scores ∨
        (scopeOk proj x = true ∧ ∃ e ∈ entries, x ∈ headingContrib toks e) := by
  induction entries generalizing st with
  | nil => simp
  | cons e rest ih =>
    rw [List.foldl_cons, ih, processHeading_scores_mem]
    constructor
    · rintro ((hm | ⟨hs, hc⟩) | ⟨hs, e', he', hc⟩)
      · exact Or.inl hm
      · exact Or.inr ⟨hs, e, List.mem_cons_self _ _, hc⟩
      · exact Or.inr ⟨hs, e', List.mem_cons_of_mem _ he', hc⟩
    · rintro (hm | ⟨hs, e', he', hc⟩)
      · exact Or.inl (Or.inl hm)
      · rcases List.mem_cons.mp he' with rfl | he'
        · exact Or.inl (Or.inr ⟨hs, hc⟩)
        · exact Or.inr ⟨hs, e', he', hc⟩

/-- Which doc ids a query can score at all: some token contributes it, or
some section heading contributes it.  Independent of the project scope. -/
def queryMatches (P : EngineParams K) (idx : SearchIndex)
    (toks : List Token) (x : String) : Prop :=
  (∃ t ∈ toks, x ∈ tokenContrib P idx t) ∨
    (∃ e ∈ getAllTitles idx, x ∈ headingContrib toks e)

theorem sectionPhase_scores_mem (P : EngineParams K) (idx : SearchIndex)
    (proj : Option String) (toks : List Token) (x : String) :
    x ∈ akeys ((sectionPhase proj toks idx (tokenPhase P idx proj toks))).scores ↔
      scopeOk proj x = true ∧ queryMatches P idx toks x := by
  unfold sectionPhase queryMatches
  rw [foldl_processHeading_scores_mem, tokenPhase_scores_mem]
  constructor
  · rintro (⟨hs, hc⟩ | ⟨hs, hc⟩)
    · exact ⟨hs, Or.inl hc⟩
    · exact ⟨hs, Or.inr hc⟩
  · rintro ⟨hs, hc | hc⟩
    · exact Or.inl ⟨hs, hc⟩
    · exact Or.inr ⟨hs, hc⟩

theorem tokenPhase_keysInv (P : EngineParams K) (idx : SearchIndex)
    (proj : Option String) (toks : List Token) :
    keysInv (tokenPhase P idx proj toks) := by
  unfold tokenPhase
  generalize hst : (emptyState : SState K) = st
  have h : keysInv st := hst ▸ keysInv_empty
  clear hst
  induction toks generalizing st with
  | nil => exact h
  | cons t rest ih => exact ih _ (processToken_keysInv P idx proj st t h)

theorem sectionPhase_keysInv (proj : Option String) (toks : List Token)
    (idx : SearchIndex) (st : SState K) (h : keysInv st) :
    keysInv (sectionPhase proj toks idx st) := by
  unfold sectionPhase
  generalize hl : getAllTitles idx = entries
  clear hl
  induction entries generalizing st with
  | nil => exact h
  | cons e rest ih => exact ih _ (processHeading_keysInv proj toks st e h)

theorem finalState_tms (P : EngineParams K) (idx : SearchIndex)
    (proj : Option String) (toks : List Token) :
    (finalState P idx proj toks).tms
      = ((sectionPhase proj toks idx (tokenPhase P idx proj toks))).tms := rfl

theorem finalState_sections (P : EngineParams K) (idx : SearchIndex)
    (proj : Option String) (toks : List Token) :
    (finalState P idx proj toks).sections
      = ((sectionPhase proj toks idx (tokenPhase P idx proj toks))).sections := rfl

theorem finalState_scores_akeys (P : EngineParams K) (idx : SearchIndex)
    (proj : Option String) (toks : List Token) :
    akeys (finalState P idx proj toks).scores
      = akeys ((sectionPhase proj toks idx (tokenPhase P idx proj toks))).scores := by
  have hInv := sectionPhase_keysInv proj toks idx _ (tokenPhase_keysInv P idx proj toks)
  unfold finalState
  exact bonusApply_akeys _ _ _ (fun x hx => hInv.1 ▸ hx)

theorem finalState_scores_mem (P : EngineParams K) (idx : SearchIndex)
    (proj : Option String) (toks : List Token) (x : String) :
    x ∈ akeys (finalState P idx proj toks).scores ↔
      scopeOk proj x = true ∧ queryMatches P idx toks x := by
  rw [finalState_scores_akeys, sectionPhase_scores_mem]

theorem finalState_scores_nodup (P : EngineParams K) (idx : SearchIndex)
    (proj : Option String) (toks : List Token) :
    (akeys (finalState P idx proj toks).scores).Nodup := by
  rw [finalState_scores_akeys]
  exact (sectionPhase_keysInv proj toks idx _ (tokenPhase_keysInv P idx proj toks)).2

/-! ## `searchAll` and `search` characterisations -/

theorem searchAll_of_tokens_empty (P : EngineParams K) (idx : SearchIndex)
    (query : String) (proj : Option String)
    (h : tokeniseWithRaw P.stem query = []) :
    searchAll P idx query proj = [] := by
  simp [searchAll, h]

theorem searchAll_of_tokens_ne (P : EngineParams K) (idx : SearchIndex)
    (query : String) (proj : Option String)
    (h : tokeniseWithRaw P.stem query ≠ []) :
    searchAll P idx query proj
      = insertionSortB resultLeB
          (buildResults idx (finalState P idx proj (tokeniseWithRaw P.stem query))) := by
  rw [searchAll, if_neg (by simpa using h)]

theorem searchAll_docId_mem (P : EngineParams K) (idx : SearchIndex)
    (query : String) (proj : Option String) (x : String) :
    x ∈ (searchAll P idx query proj).map SearchResult.docId ↔
      (tokeniseWithRaw P.stem query ≠ [] ∧ scopeOk proj x = true ∧
        queryMatches P idx (tokeniseWithRaw P.stem query) x ∧
        (alookup (docMap idx) x).isSome = true) := by
  by_cases h : tokeniseWithRaw P.stem query = []
  · rw [searchAll_of_tokens_empty P idx query proj h]
    simp [h]
  · rw [searchAll_of_tokens_ne P idx query proj h]
    rw [((insertionSortB_perm resultLeB _).map SearchResult.docId).mem_iff,
      buildResults_map_docId, List.mem_filter, finalState_scores_mem]
    tauto

theorem search_eq_take (P : EngineParams K) (idx : SearchIndex)
    (query : String) (proj : Option String) (limit : ℕ) :
    search P idx query proj limit = (searchAll P idx query proj).take limit := rfl

theorem mem_search_mem_searchAll (P : EngineParams K) (idx : SearchIndex)
    (query : String) (proj : Option String) (limit : ℕ) (r : SearchResult K)
    (h : r ∈ search P idx query proj limit) : r ∈ searchAll P idx query proj :=
  List.mem_of_mem_take h

theorem search_docId_nodup (P : EngineParams K) (idx : SearchIndex)
    (query : String) (proj : Option String) (limit : ℕ) :
    ((search P idx query proj limit).map SearchResult.docId).Nodup := by
  rw [search_eq_take, List.map_take]
  refine List.Nodup.sublist (List.take_sublist _ _) ?_
  by_cases h : tokeniseWithRaw P.stem query = []
  · rw [searchAll_of_tokens_empty P idx query proj h]
    exact List.nodup_nil
  · rw [searchAll_of_tokens_ne P idx query proj h]
    refine ((insertionSortB_perm resultLeB _).map SearchResult.docId).nodup_iff.mpr ?_
    rw [buildResults_map_docId]
    exact (finalState_scores_nodup P idx proj _).filter _

/-! ## The value added by one token's exact lookups (for C2) -/

theorem processToken_scores_lookup (P : EngineParams K) (idx : SearchIndex)
    (proj : Option String) (st : SState K) (t : Token) (d : String)
    (hsc : scopeOk proj d = true)
    (hndT : (getTitleTermDocs idx t.stem).Nodup)
    (hndB : (getTermDocs idx t.stem).Nodup)
    (hmem : d ∈ getTitleTermDocs idx t.stem ∨ d ∈ getTermDocs idx t.stem) :
    alookup (processToken P idx proj st t).scores d =
      some (agetD st.scores d 0
        + (if d ∈ getTitleTermDocs idx t.stem then
            TITLE_WEIGHT K * P.idfF (getTitleTermDocs idx t.stem).length else 0)
        + (if d ∈ getTermDocs idx t.stem then
            BODY_WEIGHT K * P.idfF (getTermDocs idx t.stem).length else 0)) := by
  have hne : ¬((getTitleTermDocs idx t.stem).length = 0 ∧ (getTermDocs idx t.stem).length = 0) := by
    rcases hmem with h | h
    · intro hc
      rw [List.length_eq_zero.mp hc.1] at h
      cases h
    · intro hc
      rw [List.length_eq_zero.mp hc.2] at h
      cases h
  rw [processToken_eq_of_exact P idx proj st t hne]
  by_cases hB : d ∈ getTermDocs idx t.stem
  · rw [foldl_addScore_scores_lookup_mem _ _ _ _ _ _ hndB hB hsc, if_pos hB]
    by_cases hT : d ∈ getTitleTermDocs idx t.stem
    · rw [if_pos hT]
      have hlook := foldl_addScore_scores_lookup_mem proj
        (TITLE_WEIGHT K * P.idfF (getTitleTermDocs idx t.stem).length) t.stem
        (getTitleTermDocs idx t.stem) st d hndT hT hsc
      unfold agetD
      rw [hlook]
      simp [agetD]
    · rw [if_neg hT]
      have hlook := foldl_addScore_scores_lookup_not_mem proj
        (TITLE_WEIGHT K * P.idfF (getTitleTermDocs idx t.stem).length) t.stem
        (getTitleTermDocs idx t.stem) st d hT
      unfold agetD
      rw [hlook]
      simp [agetD]
  · have hT : d ∈ getTitleTermDocs idx t.stem := hmem.resolve_right hB
    rw [foldl_addScore_scores_lookup_not_mem _ _ _ _ _ _ hB,
      foldl_addScore_scores_lookup_mem _ _ _ _ _ _ hndT hT hsc,
      if_pos hT, if_neg hB]
    simp [agetD]

/-! ## Stem bookkeeping: `uniqueStems`, `headingMatches`, and the stems
recorded in `tokenMatchSets` -/

theorem mem_insertIfAbsent (l : List String) (s y : String) :
    y ∈ insertIfAbsent l s ↔ y ∈ l ∨ y = s := by
  unfold insertIfAbsent
  by_cases h : s ∈ l
  · rw [if_pos h]
    constructor
    · exact Or.inl
    · rintro (hy | rfl)
      · exact hy
      · exact h
  · rw [if_neg h]
    simp

theorem insertIfAbsent_nodup (l : List String) (s : String) (h : l.Nodup) :
    (insertIfAbsent l s).Nodup := by
  unfold insertIfAbsent
  split
  · exact h
  · exact List.Nodup.append h (List.nodup_singleton s) (by simpa using by assumption)

theorem insertIfAbsent_ne_nil (l : List String) (s : String) :
    insertIfAbsent l s ≠ [] := by
  unfold insertIfAbsent
  split
  · intro hl
    subst hl
    simp_all
  · simp

theorem foldl_insertIfAbsent_mem (toks : List Token) (acc : List String) (x : String) :
    x ∈ toks.foldl (fun acc t => insertIfAbsent acc t.stem) acc ↔
      x ∈ acc ∨ x ∈ toks.map Token.stem := by
  induction toks generalizing acc with
  | nil => simp
  | cons t rest ih =>
    rw [List.foldl_cons, ih, mem_insertIfAbsent]
    simp only [List.map_cons, List.mem_cons]
    tauto

theorem foldl_insertIfAbsent_nodup (toks : List Token) (acc : List String)
    (h : acc.Nodup) :
    (toks.foldl (fun acc t => insertIfAbsent acc t.stem) acc).Nodup := by
  induction toks generalizing acc with
  | nil => exact h
  | cons t rest ih => exact ih _ (insertIfAbsent_nodup _ _ h)

theorem mem_uniqueStems (toks : List Token) (x : String) :
    x ∈ uniqueStems toks ↔ x ∈ toks.map Token.stem := by
  unfold uniqueStems
  rw [foldl_insertIfAbsent_mem]
  simp

theorem uniqueStems_nodup (toks : List Token) : (uniqueStems toks).Nodup :=
  foldl_insertIfAbsent_nodup toks [] List.nodup_nil

theorem headingMatches_snd_sub (toks : List Token) (tl : String) :
    ∀ x ∈ (headingMatches toks tl).2, x ∈ toks.map Token.stem := by
  unfold headingMatches
  suffices hgen : ∀ (acc : ℕ × List String),
      (∀ x ∈ acc.2, x ∈ toks.map Token.stem) →
      ∀ x ∈ (toks.foldl
        (fun p t =>
          if strContainsB tl t.stem then (p.1 + 1, insertIfAbsent p.2 t.stem) else p)
        acc).2, x ∈ toks.map Token.stem by
    exact hgen (0, []) (by simp)
  generalize hS : toks.map Token.stem = S
  have hT : ∀ t ∈ toks, t.stem ∈ S := by
    intro t ht
    rw [← hS]
    exact List.mem_map_of_mem _ ht
  clear hS
  induction toks with
  | nil => intro acc hacc; exact hacc
  | cons t rest ih =>
    intro acc hacc
    rw [List.foldl_cons]
    refine ih (fun t' ht' => hT t' (List.mem_cons_of_mem _ ht')) _ ?_
    by_cases hc : strContainsB tl t.stem = true
    · rw [if_pos hc]
      intro x hx
      rcases (mem_insertIfAbsent _ _ _).mp hx with hx | rfl
      · exact hacc x hx
      · exact hT t (List.mem_cons_self _ _)
    · rw [if_neg hc]
      exact hacc

theorem headingMatches_fold_ne_nil (tl : String) (toks : List Token) :
    ∀ (acc : ℕ × List String), (acc.1 ≠ 0 → acc.2 ≠ []) →
      (((toks.foldl
        (fun p t =>
          if strContainsB tl t.stem then (p.1 + 1, insertIfAbsent p.2 t.stem) else p)
        acc)).1 ≠ 0 →
      ((toks.foldl
        (fun p t =>
          if strContainsB tl t.stem then (p.1 + 1, insertIfAbsent p.2 t.stem) else p)
        acc)).2 ≠ []) := by
  induction toks with
  | nil => intro acc hacc; exact hacc
  | cons t rest ih =>
    intro acc hacc
    rw [List.foldl_cons]
    apply ih
    by_cases hc : strContainsB tl t.stem = true
    · rw [if_pos hc]
      intro _
      exact insertIfAbsent_ne_nil _ _
    · rw [if_neg hc]
      exact hacc

theorem headingMatches_snd_ne_nil (toks : List Token) (tl : String)
    (h : (headingMatches toks tl).1 ≠ 0) : (headingMatches toks tl).2 ≠ [] :=
  headingMatches_fold_ne_nil tl toks (0, []) (by simp) h

theorem headD_mem (l : List String) (h : l ≠ []) : l.headD "" ∈ l := by
  cases l with
  | nil => exact absurd rfl h
  | cons a rest => exact List.mem_cons_self _ _

/-- Every stem set recorded in `tokenMatchSets` is duplicate-free and
drawn from `S`. -/
def TmsOk (S : List String) (st : SState K) : Prop :=
  ∀ d ms, alookup st.tms d = some ms → ms.Nodup ∧ ∀ x ∈ ms, x ∈ S

theorem TmsOk_empty (S : List String) : TmsOk S (emptyState (K := K)) := by
  intro d ms h
  cases h

theorem TmsOk_of_tms_eq (S : List String) (st st' : SState K)
    (he : st.tms = st'.tms) (h : TmsOk S st') : TmsOk S st := by
  intro d ms hm
  exact h d ms (he ▸ hm)

theorem addScore_TmsOk (S : List String) (p : Option String) (st : SState K)
    (d : String) (w : K) (s : String) (h : TmsOk S st) (hs : s ∈ S) :
    TmsOk S (addScore p st d w s) := by
  by_cases hsc : scopeOk p d = true
  · intro d' ms hm
    rw [addScore_tms_eq st w s hsc] at hm
    unfold insStem at hm
    by_cases hd : d' = d
    · subst hd
      rw [alookup_aset_self] at hm
      have hval : insertIfAbsent (agetD st.tms d' []) s = ms := Option.some.inj hm
      have hold : (agetD st.tms d' []).Nodup ∧ ∀ x ∈ agetD st.tms d' [], x ∈ S := by
        unfold agetD
        cases h0 : alookup st.tms d' with
        | none => simp
        | some ms0 =>
          have := h d' ms0 h0
          simpa using this
      rw [← hval]
      refine ⟨insertIfAbsent_nodup _ _ hold.1, ?_⟩
      intro x hx
      rcases (mem_insertIfAbsent _ _ _).mp hx with hx | rfl
      · exact hold.2 x hx
      · exact hs
    · rw [alookup_aset_ne _ _ _ _ (fun he => hd he.symm)] at hm
      exact h d' ms hm
  · rw [addScore_of_scope_false st w s (by simpa using hsc)]
    exact h

theorem foldl_addScore_TmsOk (S : List String) (p : Option String) (w : K)
    (s : String) (L : List String) (st : SState K) (h : TmsOk S st) (hs : s ∈ S) :
    TmsOk S (L.foldl (fun acc d => addScore p acc d w s) st) := by
  induction L generalizing st with
  | nil => exact h
  | cons d rest ih => exact ih _ (addScore_TmsOk S p st d w s h hs)

theorem processToken_TmsOk (S : List String) (P : EngineParams K)
    (idx : SearchIndex) (proj : Option String) (st : SState K) (t : Token)
    (h : TmsOk S st) (hs : t.stem ∈ S) :
    TmsOk S (processToken P idx proj st t) := by
  by_cases hc : (getTitleTermDocs idx t.stem).length = 0 ∧ (getTermDocs idx t.stem).length = 0
  · rw [processToken_eq_of_empty P idx proj st t (List.length_eq_zero.mp hc.1)
      (List.length_eq_zero.mp hc.2)]
    rcases fuzzyMatch P.jw t.stem (getAllTitleTermKeys idx) with _ | ⟨key, sim⟩ <;>
      rcases fuzzyMatch P.jw t.stem (getAllTermKeys idx) with _ | ⟨key2, sim2⟩ <;>
      simp only [] <;>
      [exact h;
       exact foldl_addScore_TmsOk S _ _ _ _ _ h hs;
       exact foldl_addScore_TmsOk S _ _ _ _ _ h hs;
       exact foldl_addScore_TmsOk S _ _ _ _ _ (foldl_addScore_TmsOk S _ _ _ _ _ h hs) hs]
  · rw [processToken_eq_of_exact P idx proj st t hc]
    exact foldl_addScore_TmsOk S _ _ _ _ _ (foldl_addScore_TmsOk S _ _ _ _ _ h hs) hs

theorem heading_foldl_TmsOk (S : List String) (proj : Option String)
    (bonus : K) (stem0 title : String) (entries : List TitleEntry)
    (st : SState K) (h : TmsOk S st) (hs : stem0 ∈ S) :
    TmsOk S (entries.foldl (headingStep proj bonus stem0 title) st) := by
  have htms := heading_foldl_tms proj bonus stem0 title entries st st rfl
  refine TmsOk_of_tms_eq S _ _ htms ?_
  exact foldl_addScore_TmsOk S _ _ _ _ _ h hs

theorem processHeading_TmsOk (proj : Option String) (toks : List Token)
    (st : SState K) (entry : String × List TitleEntry)
    (h : TmsOk (toks.map Token.stem) st) :
    TmsOk (toks.map Token.stem) (processHeading proj toks st entry) := by
  by_cases hz : (headingMatches toks (toLowerStr entry.1)).1 = 0
  · rwa [processHeading_eq_of_zero proj toks st entry hz]
  · rw [processHeading_eq_of_pos proj toks st entry hz]
    refine heading_foldl_TmsOk _ _ _ _ _ _ _ h ?_
    exact headingMatches_snd_sub toks (toLowerStr entry.1) _
      (headD_mem _ (headingMatches_snd_ne_nil toks (toLowerStr entry.1) hz))

theorem tokenPhase_TmsOk (P : EngineParams K) (idx : SearchIndex)
    (proj : Option String) (toks : List Token) :
    TmsOk (toks.map Token.stem) (tokenPhase P idx proj toks) := by
  unfold tokenPhase
  suffices hgen : ∀ (sub : List Token) (st : SState K),
      TmsOk (toks.map Token.stem) st → (∀ t ∈ sub, t ∈ toks) →
      TmsOk (toks.map Token.stem) (sub.foldl (processToken P idx proj) st) by
    exact hgen toks emptyState (TmsOk_empty _) (fun t ht => ht)
  intro sub
  induction sub with
  | nil => intro st h _; exact h
  | cons t rest ih =>
    intro st h hsub
    rw [List.foldl_cons]
    refine ih _ (processToken_TmsOk _ P idx proj st t h
      (List.mem_map_of_mem _ (hsub t (List.mem_cons_self _ _)))) ?_
    exact fun t' ht' => hsub t' (List.mem_cons_of_mem _ ht')

theorem sectionPhase_TmsOk (P : EngineParams K) (idx : SearchIndex)
    (proj : Option String) (toks : List Token) :
    TmsOk (toks.map Token.stem)
      (sectionPhase proj toks idx (tokenPhase P idx proj toks)) := by
  unfold sectionPhase
  generalize hl : getAllTitles idx = entries
  clear hl
  have h := tokenPhase_TmsOk P idx proj toks
  generalize hst : tokenPhase P idx proj toks = st at h
  clear hst
  induction entries generalizing st with
  | nil => exact h
  | cons e rest ih =>
    rw [List.foldl_cons]
    exact ih _ (processHeading_TmsOk proj toks st e h)

/-- On duplicate-free lists, a subset of equal length is set-equal. -/
theorem nodup_subset_length_iff (ms uniq : List String) (hms : ms.Nodup)
    (huniq : uniq.Nodup) (hsub : ∀ x ∈ ms, x ∈ uniq) :
    (ms.length = uniq.length ↔ ∀ x, x ∈ ms ↔ x ∈ uniq) := by
  constructor
  · intro hlen x
    have hfin : ms.toFinset = uniq.toFinset := by
      refine Finset.eq_of_subset_of_card_le ?_ ?_
      · intro a ha
        rw [List.mem_toFinset] at ha
        rw [List.mem_toFinset]
        exact hsub a ha
      · rw [List.toFinset_card_of_nodup hms, List.toFinset_card_of_nodup huniq, hlen]
    constructor
    · exact hsub x
    · intro hx
      have : x ∈ uniq.toFinset := List.mem_toFinset.mpr hx
      rw [← hfin, List.mem_toFinset] at this
      exact this
  · intro hiff
    have hfin : ms.toFinset = uniq.toFinset := by
      ext a
      rw [List.mem_toFinset, List.mem_toFinset]
      exact hiff a
    rw [← List.toFinset_card_of_nodup hms, ← List.toFinset_card_of_nodup huniq, hfin]

/-! ## Tokeniser emptiness (for C6) -/

theorem queryFragments_eq_nil (q : String)
    (h : ∀ t ∈ rawFragments q, t.length < 2 ∨ t ∈ STOP_WORDS) :
    queryFragments q = [] := by
  unfold queryFragments
  rw [List.filter_eq_nil_iff]
  intro t ht
  rcases h t ht with hlen | hstop
  · have hno : ¬ (2 ≤ t.length) := by omega
    simp [hno]
  · simp [hstop]

theorem tokeniseWithRaw_eq_nil (stem : String → String) (q : String)
    (h : ∀ t ∈ rawFragments q, t.length < 2 ∨ t ∈ STOP_WORDS) :
    tokeniseWithRaw stem q = [] := by
  unfold tokeniseWithRaw
  rw [queryFragments_eq_nil q h]
  rfl

/-! ## Unscoped score folds over duplicate-free posting lists (for C9) -/

theorem foldl_addScore_akeys_none (w : K) (s : String) (L : List String)
    (st : SState K) (hnd : L.Nodup) :
    akeys ((L.foldl (fun acc d => addScore none acc d w s) st).scores)
      = akeys st.scores ++ L.filter (fun d => decide (d ∉ akeys st.scores)) := by
  induction L generalizing st with
  | nil => simp
  | cons d rest ih =>
    have hp := List.nodup_cons.mp hnd
    have hsc : scopeOk none d = true := rfl
    have hkeys : akeys (addScore none st d w s).scores
        = if d ∈ akeys st.scores then akeys st.scores else akeys st.scores ++ [d] := by
      rw [addScore_scores_eq st w s hsc, akeys_aset]
    rw [List.foldl_cons, ih _ hp.2, hkeys]
    by_cases hmem : d ∈ akeys st.scores
    · have hdec : decide (d ∉ akeys st.scores) = false := by simp [hmem]
      rw [if_pos hmem, List.filter_cons, hdec]
      simp only [Bool.false_eq_true, if_false]
    · have hdec : decide (d ∉ akeys st.scores) = true := by simp [hmem]
      rw [if_neg hmem, List.filter_cons, hdec]
      simp only [if_true]
      rw [List.append_assoc, List.singleton_append]
      congr 1
      congr 1
      refine List.filter_congr ?_
      intro x hx
      have hxd : x ≠ d := fun he => hp.1 (he ▸ hx)
      simp [hxd]

/-! ## `docMap` lookups -/

theorem docMap_foldl_lookup_not_mem (docs : List DocumentRecord)
    (m : List (String × DocumentRecord)) (k : String)
    (h : ∀ d ∈ docs, d.id ≠ k) :
    alookup (docs.foldl (fun m d => aset m d.id d) m) k = alookup m k := by
  induction docs generalizing m with
  | nil => rfl
  | cons x rest ih =>
    rw [List.foldl_cons, ih _ (fun d hd => h d (List.mem_cons_of_mem _ hd)),
      alookup_aset_ne _ _ _ _ (h x (List.mem_cons_self _ _))]

theorem docMap_foldl_lookup_self (docs : List DocumentRecord)
    (m : List (String × DocumentRecord)) (d : DocumentRecord)
    (hnd : (docs.map DocumentRecord.id).Nodup) (hd : d ∈ docs) :
    alookup (docs.foldl (fun m d => aset m d.id d) m) d.id = some d := by
  induction docs generalizing m with
  | nil => cases hd
  | cons x rest ih =>
    rw [List.map_cons] at hnd
    have hp := List.nodup_cons.mp hnd
    rcases List.mem_cons.mp hd with rfl | hd'
    · rw [List.foldl_cons,
        docMap_foldl_lookup_not_mem rest _ d.id
          (fun e he heq => hp.1 (heq ▸ List.mem_map_of_mem DocumentRecord.id he)),
        alookup_aset_self]
    · rw [List.foldl_cons]
      exact ih _ hp.2 hd'

theorem docMap_lookup_self (idx : SearchIndex)
    (hnd : (idx.documents.map DocumentRecord.id).Nodup)
    (d : DocumentRecord) (hd : d ∈ idx.documents) :
    alookup (docMap idx) d.id = some d :=
  docMap_foldl_lookup_self idx.documents [] d hnd hd

/-! ## Merge-pipeline lemmas (for C7 and C8) -/

theorem dirQualified_none (d : DirEntry) (h : d.sphinx = none) :
    dirQualified d = none := by
  rw [dirQualified, h]
  rfl

theorem filterMap_dirQualified_names (l : List DirEntry) :
    ((l.filterMap dirQualified).map QualifiedProject.name)
      = ((l.filter fun d => d.sphinx.isSome).map DirEntry.name) := by
  induction l with
  | nil => rfl
  | cons d rest ih =>
    cases hs : d.sphinx with
    | none =>
      rw [List.filterMap_cons, dirQualified_none d hs, List.filter_cons]
      simp only [hs, Option.isSome_none]
      exact ih
    | some s =>
      rw [List.filterMap_cons, List.filter_cons]
      have hq : dirQualified d = some ⟨d.name, s, d.hasLocalIndexHtml, d.info⟩ := by
        rw [dirQualified, hs]
        rfl
      simp only [hq, hs, Option.isSome_some, if_pos]
      rw [List.map_cons, List.map_cons, ih]

theorem alookup_sortValues (m : List (String × List String)) (k : String) :
    alookup (sortValues m) k = (alookup m k).map (insertionSortB strLeB) := by
  induction m with
  | nil => rfl
  | cons p rest ih =>
    obtain ⟨k', v⟩ := p
    unfold sortValues at ih ⊢
    rw [List.map_cons]
    by_cases h : k' = k
    · simp [alookup, h]
    · simp [alookup, h, ih]

theorem sortValues_sorted (m : List (String × List String)) (k : String)
    (l : List String) (h : alookup (sortValues m) k = some l) :
    l.Pairwise (fun a b => strLeB a b = true) := by
  rw [alookup_sortValues] at h
  cases h0 : alookup m k with
  | none => rw [h0] at h; cases h
  | some l0 =>
    rw [h0] at h
    have : insertionSortB strLeB l0 = l := Option.some.inj h
    rw [← this]
    exact insertionSortB_sorted strLeB strLeB_total
      (fun hab hbc => strLeB_trans hab hbc) l0

theorem docsOfProject_map_id (q : QualifiedProject) :
    (docsOfProject q).map DocumentRecord.id
      = (List.range q.sphinx.filenames.length).map (mkDocId q.name) := by
  unfold docsOfProject
  rw [List.map_map]
  rfl

theorem docsOfProject_length (q : QualifiedProject) :
    (docsOfProject q).length = q.sphinx.filenames.length := by
  unfold docsOfProject
  rw [List.length_map, List.length_range]

theorem docsOfProject_id_nodup (q : QualifiedProject) :
    ((docsOfProject q).map DocumentRecord.id).Nodup := by
  rw [docsOfProject_map_id]
  refine List.Nodup.map_on ?_ (List.nodup_range _)
  intro i _ j _ hij
  exact (mkDocId_inj hij).2

/-! ## The result comparator and rank order of `searchAll` -/

theorem resultLeB_cases {a b : SearchResult K} (h : resultLeB a b = true) :
    b.score < a.score ∨ (a.score = b.score ∧ strLeB a.title b.title = true) := by
  unfold resultLeB at h
  by_cases hba : b.score < a.score
  · exact Or.inl hba
  · rw [if_neg hba] at h
    by_cases heq : a.score = b.score
    · rw [if_pos heq] at h
      exact Or.inr ⟨heq, h⟩
    · rw [if_neg heq] at h
      cases h

theorem resultLeB_total (a b : SearchResult K) :
    resultLeB a b = true ∨ resultLeB b a = true := by
  by_cases hba : b.score < a.score
  · left
    simp [resultLeB, hba]
  · by_cases hab : a.score < b.score
    · right
      simp [resultLeB, hab]
    · have heq : a.score = b.score := le_antisymm (not_lt.mp hba) (not_lt.mp hab)
      rcases strLeB_total a.title b.title with h | h
      · left
        rw [resultLeB, if_neg hba, if_pos heq]
        exact h
      · right
        rw [resultLeB, if_neg hab, if_pos heq.symm]
        exact h

theorem resultLeB_trans {a b c : SearchResult K} (hab : resultLeB a b = true)
    (hbc : resultLeB b c = true) : resultLeB a c = true := by
  rcases resultLeB_cases hab with h1 | ⟨he1, ht1⟩ <;>
    rcases resultLeB_cases hbc with h2 | ⟨he2, ht2⟩
  · have : c.score < a.score := lt_trans h2 h1
    simp [resultLeB, this]
  · have : c.score < a.score := he2 ▸ h1
    simp [resultLeB, this]
  · have : c.score < a.score := he1 ▸ h2
    simp [resultLeB, this]
  · have he : a.score = c.score := he1.trans he2
    rw [resultLeB, if_neg (by rw [he]; exact lt_irrefl _), if_pos he]
    exact strLeB_trans ht1 ht2

theorem searchAll_sorted (P : EngineParams K) (idx : SearchIndex)
    (query : String) (proj : Option String) :
    (searchAll P idx query proj).Pairwise (fun a b => resultLeB a b = true) := by
  by_cases h : tokeniseWithRaw P.stem query = []
  · rw [searchAll_of_tokens_empty P idx query proj h]
    exact List.Pairwise.nil
  · rw [searchAll_of_tokens_ne P idx query proj h]
    exact insertionSortB_sorted resultLeB resultLeB_total
      (fun hab hbc => resultLeB_trans hab hbc) _

theorem searchAll_docId_nodup (P : EngineParams K) (idx : SearchIndex)
    (query : String) (proj : Option String) :
    ((searchAll P idx query proj).map SearchResult.docId).Nodup := by
  by_cases h : tokeniseWithRaw P.stem query = []
  · rw [searchAll_of_tokens_empty P idx query proj h]
    exact List.nodup_nil
  · rw [searchAll_of_tokens_ne P idx query proj h]
    refine ((insertionSortB_perm resultLeB _).map SearchResult.docId).nodup_iff.mpr ?_
    rw [buildResults_map_docId]
    exact (finalState_scores_nodup P idx proj _).filter _

/-! ## Scores carried by built results -/

theorem alookup_of_mem_nodup (m : List (String × β)) (k : String) (v : β)
    (hnd : (akeys m).Nodup) (hm : (k, v) ∈ m) : alookup m k = some v := by
  induction m with
  | nil => cases hm
  | cons p rest ih =>
    obtain ⟨k', v'⟩ := p
    rw [akeys, List.map_cons] at hnd
    have hp := List.nodup_cons.mp hnd
    rcases List.mem_cons.mp hm with he | hm'
    · injection he with h1 h2
      subst h1
      subst h2
      rw [alookup, if_pos rfl]
    · have hk : ¬ k' = k := by
        intro he2
        subst he2
        exact hp.1 (List.mem_map.mpr ⟨(k', v), hm', rfl⟩)
      rw [alookup, if_neg hk]
      exact ih (by simpa [akeys] using hp.2) hm'

theorem buildResults_foldl_score (idx : SearchIndex) (st : SState K)
    (l : List (String × K)) (acc : List (SearchResult K)) (r : SearchResult K)
    (hr : r ∈ l.foldl
        (fun acc p =>
          match alookup (docMap idx) p.1 with
          | none => acc
          | some doc =>
            acc ++ [⟨p.1, doc.project, doc.title, doc.url, p.2,
                     agetD st.matched p.1 [], agetD st.sections p.1 []⟩])
        acc) :
    r ∈ acc ∨ ∃ p ∈ l, r.docId = p.1 ∧ r.score = p.2 := by
  induction l generalizing acc with
  | nil => exact Or.inl hr
  | cons p rest ih =>
    rw [List.foldl_cons] at hr
    rcases hdoc : alookup (docMap idx) p.1 with _ | doc
    · rw [hdoc] at hr
      rcases ih _ hr with h | ⟨p', hp', h1, h2⟩
      · exact Or.inl h
      · exact Or.inr ⟨p', List.mem_cons_of_mem _ hp', h1, h2⟩
    · rw [hdoc] at hr
      rcases ih _ hr with h | ⟨p', hp', h1, h2⟩
      · rcases List.mem_append.mp h with h | h
        · exact Or.inl h
        · rcases List.mem_singleton.mp h with rfl
          exact Or.inr ⟨p, List.mem_cons_self _ _, rfl, rfl⟩
      · exact Or.inr ⟨p', List.mem_cons_of_mem _ hp', h1, h2⟩

theorem buildResults_score (idx : SearchIndex) (st : SState K)
    (hnd : (akeys st.scores).Nodup) (r : SearchResult K)
    (hr : r ∈ buildResults idx st) :
    alookup st.scores r.docId = some r.score := by
  rcases buildResults_foldl_score idx st _ _ r hr with h | ⟨p, hp, h1, h2⟩
  · cases h
  · rw [h1, h2]
    exact alookup_of_mem_nodup _ _ _ hnd (by rwa [← Prod.mk.eta (p := p)] at hp)

/-! ## Small list utilities -/

theorem nodup_mem_iff_singleton (l : List String) (x : String)
    (hnd : l.Nodup) (hiff : ∀ y, y ∈ l ↔ y = x) : l = [x] := by
  cases l with
  | nil =>
    exact absurd ((hiff x).mpr rfl) (List.not_mem_nil x)
  | cons a rest =>
    have ha : a = x := (hiff a).mp (List.mem_cons_self _ _)
    subst ha
    have hrest : rest = [] := by
      rw [List.eq_nil_iff_forall_not_mem]
      intro y hy
      have : y = a := (hiff y).mp (List.mem_cons_of_mem _ hy)
      subst this
      exact (List.nodup_cons.mp hnd).1 hy
    rw [hrest]

theorem mem_take_one_cons (l : List α) (x : α) (h : x ∈ l.take 1) :
    ∃ tail, l = x :: tail := by
  cases l with
  | nil => cases h
  | cons a rest =>
    have : x = a := by simpa using h
    subst this
    exact ⟨rest, rfl⟩

/-! ## Positivity of the smoothed IDF -/

theorem idf_pos (D n : ℕ) (h : n ≤ D) : 0 < idf D n := by
  unfold idf
  have h1 : (1 : ℝ) ≤ ((D : ℝ) + 1) / ((n : ℝ) + 1) := by
    rw [le_div_iff₀ (by positivity)]
    have : (n : ℝ) ≤ (D : ℝ) := Nat.cast_le.mpr h
    linarith
  nlinarith [Real.log_nonneg h1]

/-! ## Concrete instantiations used by counterexamples and witnesses

`exParams` instantiates the external-library parameters: the identity
stemmer, a Jaro-Winkler stub that never clears the threshold, and a
constant IDF curve.  The claims quantify over these parameters, so any
instantiation refutes a universally quantified claim. -/

/-- A concrete engine-parameter instantiation over `ℚ`. -/
def exParams : EngineParams ℚ :=
  ⟨id, fun _ _ => 0, fun _ => 1⟩

/-- Two projects, one body term hitting both docs, one title term hitting
only the `q` doc. -/
def exIdxC1 : SearchIndex :=
  ⟨[⟨"p:0", "p", "f", "Alpha", "u1"⟩, ⟨"q:0", "q", "g", "Beta", "u2"⟩],
   [("aa", ["p:0", "q:0"])], [("aa", ["q:0"])], []⟩

theorem exC1_tokens : tokeniseWithRaw exParams.stem "aa" = [⟨"aa", "aa"⟩] := by
  decide

theorem finalState_scores (P : EngineParams K) (idx : SearchIndex)
    (proj : Option String) (toks : List Token) :
    (finalState P idx proj toks).scores
      = bonusApply (uniqueStems toks).length
          ((sectionPhase proj toks idx (tokenPhase P idx proj toks))).tms
          ((sectionPhase proj toks idx (tokenPhase P idx proj toks))).scores := rfl

theorem exC1_scoped_ids :
    (search exParams exIdxC1 "aa" (some "p") 1).map SearchResult.docId = ["p:0"] := by
  have hiff : ∀ y, y ∈ (searchAll exParams exIdxC1 "aa" (some "p")).map SearchResult.docId
      ↔ y = "p:0" := by
    intro y
    rw [searchAll_docId_mem]
    constructor
    · rintro ⟨-, hscope, hqm, -⟩
      rcases hqm with ⟨t, ht, hc⟩ | ⟨e, he, -⟩
      · rw [exC1_tokens] at ht
        rcases List.mem_singleton.mp ht with rfl
        rw [show tokenContrib exParams exIdxC1 ⟨"aa", "aa"⟩ = ["q:0", "p:0", "q:0"]
          from by decide] at hc
        have hy : y = "q:0" ∨ y = "p:0" ∨ y = "q:0" := by simpa using hc
        rcases hy with rfl | rfl | rfl
        · rw [show scopeOk (some "p") "q:0" = false from by decide] at hscope
          cases hscope
        · rfl
        · rw [show scopeOk (some "p") "q:0" = false from by decide] at hscope
          cases hscope
      · rw [show getAllTitles exIdxC1 = [] from rfl] at he
        cases he
    · rintro rfl
      exact ⟨by decide, by decide,
        Or.inl ⟨⟨"aa", "aa"⟩, by decide, by decide⟩, by decide⟩
  have hsing := nodup_mem_iff_singleton _ _
    (searchAll_docId_nodup exParams exIdxC1 "aa" (some "p")) hiff
  rw [search_eq_take, List.map_take, hsing]
  rfl

theorem exC1_unscoped_q_mem :
    "q:0" ∈ (searchAll exParams exIdxC1 "aa" none).map SearchResult.docId := by
  rw [searchAll_docId_mem]
  exact ⟨by decide, rfl, Or.inl ⟨⟨"aa", "aa"⟩, by decide, by decide⟩, by decide⟩

theorem exC1_score_lookup (d : String) (hd : d = "p:0" ∨ d = "q:0") :
    alookup (finalState exParams exIdxC1 none (tokeniseWithRaw exParams.stem "aa")).scores d
      = some (agetD (emptyState (K := ℚ)).scores d 0
          + (if d ∈ getTitleTermDocs exIdxC1 "aa" then
              TITLE_WEIGHT ℚ * exParams.idfF (getTitleTermDocs exIdxC1 "aa").length else 0)
          + (if d ∈ getTermDocs exIdxC1 "aa" then
              BODY_WEIGHT ℚ * exParams.idfF (getTermDocs exIdxC1 "aa").length else 0)) := by
  rw [finalState_scores,
    bonusApply_of_le_one _ _ _ (by rw [exC1_tokens]; decide)]
  rw [show sectionPhase none (tokeniseWithRaw exParams.stem "aa") exIdxC1
      (tokenPhase exParams exIdxC1 none (tokeniseWithRaw exParams.stem "aa"))
      = tokenPhase exParams exIdxC1 none (tokeniseWithRaw exParams.stem "aa") from rfl]
  rw [show tokenPhase exParams exIdxC1 none (tokeniseWithRaw exParams.stem "aa")
      = processToken exParams exIdxC1 none emptyState ⟨"aa", "aa"⟩ from by
    rw [exC1_tokens]; rfl]
  refine processToken_scores_lookup exParams exIdxC1 none emptyState ⟨"aa", "aa"⟩ d
    ?_ (by decide) (by decide) ?_
  · rcases hd with rfl | rfl <;> rfl
  · rcases hd with rfl | rfl
    · exact Or.inr (by decide)
    · exact Or.inl (by decide)

theorem exC1_unscoped_not_mem :
    "p:0" ∉ (search exParams exIdxC1 "aa" none 1).map SearchResult.docId := by
  intro hmem
  rw [search_eq_take, List.map_take] at hmem
  obtain ⟨tail0, htail0⟩ := mem_take_one_cons _ _ hmem
  obtain ⟨r0, rtail, hL, hid0⟩ :
      ∃ r0 rtail, searchAll exParams exIdxC1 "aa" none = r0 :: rtail ∧ r0.docId = "p:0" := by
    cases hcase : searchAll exParams exIdxC1 "aa" none with
    | nil =>
      rw [hcase] at htail0
      cases htail0
    | cons r0 rtail =>
      rw [hcase, List.map_cons] at htail0
      injection htail0 with h1 h2
      exact ⟨r0, rtail, rfl, h1⟩
  obtain ⟨rq, hrqmem, hrqid⟩ := List.mem_map.mp exC1_unscoped_q_mem
  have hrq_tail : rq ∈ rtail := by
    rw [hL] at hrqmem
    rcases List.mem_cons.mp hrqmem with rfl | h
    · rw [hid0] at hrqid
      exact absurd hrqid (by decide)
    · exact h
  have hle : resultLeB r0 rq = true := by
    have hs := searchAll_sorted exParams exIdxC1 "aa" none
    rw [hL] at hs
    exact (List.pairwise_cons.mp hs).1 rq hrq_tail
  have hbuild : ∀ r, r ∈ searchAll exParams exIdxC1 "aa" none →
      alookup (finalState exParams exIdxC1 none
        (tokeniseWithRaw exParams.stem "aa")).scores r.docId = some r.score := by
    intro r hr
    have hr' : r ∈ buildResults exIdxC1
        (finalState exParams exIdxC1 none (tokeniseWithRaw exParams.stem "aa")) := by
      rw [searchAll_of_tokens_ne exParams exIdxC1 "aa" none (by decide)] at hr
      exact (insertionSortB_perm resultLeB _).mem_iff.mp hr
    exact buildResults_score _ _ (finalState_scores_nodup _ _ _ _) r hr'
  have h0 := hbuild r0 (by rw [hL]; exact List.mem_cons_self _ _)
  have hq := hbuild rq (by rw [hL]; exact List.mem_cons_of_mem _ hrq_tail)
  rw [hid0, exC1_score_lookup "p:0" (Or.inl rfl)] at h0
  rw [hrqid, exC1_score_lookup "q:0" (Or.inr rfl)] at hq
  have hs0 : r0.score = 1 := by
    have := Option.some.inj h0
    rw [← this]
    rw [if_neg (by decide), if_pos (by decide)]
    norm_num [agetD, alookup, emptyState, BODY_WEIGHT, exParams]
  have hsq : rq.score = 4 := by
    have := Option.some.inj hq
    rw [← this]
    rw [if_pos (by decide), if_pos (by decide)]
    norm_num [agetD, alookup, emptyState, TITLE_WEIGHT, BODY_WEIGHT, exParams]
  rcases resultLeB_cases hle with hlt | ⟨heq, -⟩
  · rw [hs0, hsq] at hlt
    norm_num at hlt
  · rw [hs0, hsq] at heq
    norm_num at heq

/-- C1, as stated, fails: with a limit that truncates, a scoped result
need not appear among the unscoped results at the same limit.  On
`exIdxC1` with query `"aa"` and limit 1, the scoped call returns `"p:0"`
while the unscoped call returns only `"q:0"`. -/
theorem C1_counterexample :
    "p:0" ∈ (search exParams exIdxC1 "aa" (some "p") 1).map SearchResult.docId
  ∧ "p:0" ∉ (search exParams exIdxC1 "aa" none 1).map SearchResult.docId := by
  constructor
  · rw [exC1_scoped_ids]
    exact List.mem_singleton.mpr rfl
  · exact exC1_unscoped_not_mem

/-- C1 (amended): for a non-empty project id `p`, every result of
`search(q, {project: p})` has a doc id prefixed `"p:"`, and its id is
among the ids scored by the unscoped `search(q, {})` before that call's
limit truncation (the subset holds against the pre-truncation result
set; with truncation at the same limit it fails, see the
counterexample). -/
theorem C1_scoped_prefix_and_subset :
    ∀ (K : Type) [inst : LinearOrderedField K] (P : EngineParams K)
      (idx : SearchIndex) (q p : String) (limit : ℕ), p ≠ "" →
      (∀ r ∈ search P idx q (some p) limit,
        strStartsWithB r.docId (p ++ ":") = true) ∧
      (∀ r ∈ search P idx q (some p) limit,
        r.docId ∈ (searchAll P idx q none).map SearchResult.docId) := by
  intro K inst P idx q p limit hp
  have hmem : ∀ r ∈ search P idx q (some p) limit,
      tokeniseWithRaw P.stem q ≠ [] ∧ scopeOk (some p) r.docId = true ∧
        queryMatches P idx (tokeniseWithRaw P.stem q) r.docId ∧
        (alookup (docMap idx) r.docId).isSome = true := by
    intro r hr
    exact (searchAll_docId_mem P idx q (some p) r.docId).mp
      (List.mem_map_of_mem SearchResult.docId
        (mem_search_mem_searchAll P idx q (some p) limit r hr))
  constructor
  · intro r hr
    have h := (hmem r hr).2.1
    rw [scopeOk, if_neg hp] at h
    exact h
  · intro r hr
    obtain ⟨htok, hsc, hqm, hsome⟩ := hmem r hr
    rw [searchAll_docId_mem]
    exact ⟨htok, rfl, hqm, hsome⟩

/-- Witness for C1 at a concrete scoped result. -/
theorem C1_scoped_prefix_and_subset_witness :
    strStartsWithB "p:0" ("p" ++ ":") = true ∧
    "p:0" ∈ (searchAll exParams exIdxC1 "aa" none).map SearchResult.docId := by
  have h := C1_scoped_prefix_and_subset ℚ exParams exIdxC1 "aa" "p" 1 (by decide)
  have hr : ∃ r ∈ search exParams exIdxC1 "aa" (some "p") 1, r.docId = "p:0" := by
    have : "p:0" ∈ (search exParams exIdxC1 "aa" (some "p") 1).map SearchResult.docId := by
      rw [exC1_scoped_ids]
      exact List.mem_singleton.mpr rfl
    simpa [List.mem_map] using this
  obtain ⟨r, hrmem, hrid⟩ := hr
  exact ⟨hrid ▸ h.1 r hrmem, hrid ▸ h.2 r hrmem⟩

/-- One doc, one title term, no body terms (for the C2 analysis). -/
def exIdxC2 : SearchIndex :=
  ⟨[⟨"x:0", "x", "f", "T", "u"⟩], [], [("aa", ["x:0"])], []⟩

/-- C2 (amended): each *occurrence* of a query token whose stem has a
non-empty exact posting list adds `3.0 × idf(n)` to every title-posting
doc and `1.0 × idf(n)` to every body-posting doc — the addition happens
once per token occurrence, not once per distinct stem — and the smoothed
IDF is strictly positive for every `0 ≤ n ≤ totalDocs`. -/
theorem C2_exact_weights_and_idf_pos :
    (∀ (K : Type) [inst : LinearOrderedField K] (P : EngineParams K)
      (idx : SearchIndex) (proj : Option String) (st : SState K) (t : Token)
      (d : String),
      scopeOk proj d = true →
      (getTitleTermDocs idx t.stem).Nodup →
      (getTermDocs idx t.stem).Nodup →
      (d ∈ getTitleTermDocs idx t.stem ∨ d ∈ getTermDocs idx t.stem) →
      alookup (processToken P idx proj st t).scores d =
        some (agetD st.scores d 0
          + (if d ∈ getTitleTermDocs idx t.stem then
              TITLE_WEIGHT K * P.idfF (getTitleTermDocs idx t.stem).length else 0)
          + (if d ∈ getTermDocs idx t.stem then
              BODY_WEIGHT K * P.idfF (getTermDocs idx t.stem).length else 0)))
  ∧ (∀ D n : ℕ, n ≤ D → 0 < idf D n) := by
  constructor
  · intro K inst P idx proj st t d hsc hndT hndB hmem
    exact processToken_scores_lookup P idx proj st t d hsc hndT hndB hmem
  · exact idf_pos

/-- C2, as stated, fails: a duplicated token adds its weight twice.  On
`exIdxC2`, the query `"aa aa"` has the single distinct stem `"aa"` with a
one-doc title posting, yet the doc's accumulated score is `6 = 2 × 3 ×
idf`, not the claimed `3 × idf` (with the constant IDF curve `idfF = 1`
of `exParams`). -/
theorem C2_counterexample :
    alookup (finalState exParams exIdxC2 none
        (tokeniseWithRaw exParams.stem "aa aa")).scores "x:0" = some 6
  ∧ (6 : ℚ) ≠ TITLE_WEIGHT ℚ * exParams.idfF (getTitleTermDocs exIdxC2 "aa").length := by
  have htoks : tokeniseWithRaw exParams.stem "aa aa" = [⟨"aa", "aa"⟩, ⟨"aa", "aa"⟩] := by
    decide
  constructor
  · rw [finalState_scores, bonusApply_of_le_one _ _ _ (by decide)]
    rw [show sectionPhase none (tokeniseWithRaw exParams.stem "aa aa") exIdxC2
        (tokenPhase exParams exIdxC2 none (tokeniseWithRaw exParams.stem "aa aa"))
        = tokenPhase exParams exIdxC2 none (tokeniseWithRaw exParams.stem "aa aa")
      from rfl]
    rw [show tokenPhase exParams exIdxC2 none (tokeniseWithRaw exParams.stem "aa aa")
        = processToken exParams exIdxC2 none
            (processToken exParams exIdxC2 none emptyState ⟨"aa", "aa"⟩) ⟨"aa", "aa"⟩
      from by rw [htoks]; rfl]
    have h1 := processToken_scores_lookup exParams exIdxC2 none emptyState
      ⟨"aa", "aa"⟩ "x:0" rfl (by decide) (by decide) (Or.inl (by decide))
    rw [if_pos (by decide), if_neg (by decide)] at h1
    have h2 := processToken_scores_lookup exParams exIdxC2 none
      (processToken exParams exIdxC2 none emptyState ⟨"aa", "aa"⟩)
      ⟨"aa", "aa"⟩ "x:0" rfl (by decide) (by decide) (Or.inl (by decide))
    rw [if_pos (by decide), if_neg (by decide)] at h2
    rw [h2]
    have h3 : agetD (processToken exParams exIdxC2 none emptyState
        ⟨"aa", "aa"⟩).scores "x:0" (0 : ℚ)
        = agetD (emptyState (K := ℚ)).scores "x:0" 0
          + TITLE_WEIGHT ℚ * exParams.idfF (getTitleTermDocs exIdxC2 "aa").length + 0 := by
      unfold agetD
      rw [h1]
      rfl
    rw [h3]
    norm_num [agetD, alookup, emptyState, TITLE_WEIGHT, exParams,
      show (getTitleTermDocs exIdxC2 "aa").length = 1 from by decide]
  · norm_num [TITLE_WEIGHT, exParams]

/-- Witness for C2 at a concrete token, doc and IDF argument. -/
theorem C2_exact_weights_and_idf_pos_witness :
    alookup (processToken exParams exIdxC2 none emptyState ⟨"aa", "aa"⟩).scores "x:0"
      = some (agetD (emptyState (K := ℚ)).scores "x:0" 0
        + (if "x:0" ∈ getTitleTermDocs exIdxC2 "aa" then
            TITLE_WEIGHT ℚ * exParams.idfF (getTitleTermDocs exIdxC2 "aa").length else 0)
        + (if "x:0" ∈ getTermDocs exIdxC2 "aa" then
            BODY_WEIGHT ℚ * exParams.idfF (getTermDocs exIdxC2 "aa").length else 0))
  ∧ 0 < idf 3 2 :=
  ⟨C2_exact_weights_and_idf_pos.1 ℚ exParams exIdxC2 none emptyState ⟨"aa", "aa"⟩
     "x:0" rfl (by decide) (by decide) (Or.inl (by decide)),
   C2_exact_weights_and_idf_pos.2 3 2 (by norm_num)⟩

/-- What one section heading adds to a referenced, scope-passing doc:
the bonus `SECTION_WEIGHT × matchCount` on its score, and the heading
(with anchor) appended to its recorded section list. -/
theorem processHeading_lookup (proj : Option String) (tokens : List Token)
    (st : SState K) (title : String) (entries : List TitleEntry)
    (d : String) (a : Option String)
    (hm : (headingMatches tokens (toLowerStr title)).1 ≠ 0)
    (hnd : (entries.map TitleEntry.docId).Nodup)
    (hmem : (⟨d, a⟩ : TitleEntry) ∈ entries)
    (hsc : scopeOk proj d = true) :
    alookup (processHeading proj tokens st (title, entries)).scores d
      = some (agetD st.scores d 0
          + SECTION_WEIGHT K * ((headingMatches tokens (toLowerStr title)).1 : K))
  ∧ alookup (processHeading proj tokens st (title, entries)).sections d
      = some (agetD st.sections d [] ++ [⟨title, a⟩]) := by
  rw [processHeading_eq_of_pos proj tokens st (title, entries) hm]
  constructor
  · rw [heading_foldl_scores proj _ _ (title, entries).1 entries st st rfl]
    exact foldl_addScore_scores_lookup_mem proj _ _ (entries.map TitleEntry.docId)
      st d hnd (List.mem_map.mpr ⟨⟨d, a⟩, hmem, rfl⟩) hsc
  · exact heading_foldl_sections_lookup_mem proj _ _ _ entries st d a hnd hmem hsc

/-- One doc, no term postings, one section heading containing `"aa"`
(for the C3 analysis). -/
def exIdxC3 : SearchIndex :=
  ⟨[⟨"x:0", "x", "f", "T", "u"⟩], [], [],
   [("aa heading", [⟨"x:0", some "anch"⟩])]⟩

/-- C3 (amended): a heading whose lowercased text contains at least one
query token's stem adds `2.0 × matchCount` to every referenced doc
passing the scope, where `matchCount` counts the matching *token
occurrences* (with multiplicity, not distinct tokens), and the heading
with its anchor is recorded against that doc for display. -/
theorem C3_section_bonus :
    ∀ (K : Type) [inst : LinearOrderedField K] (proj : Option String)
      (tokens : List Token) (st : SState K) (title : String)
      (entries : List TitleEntry) (d : String) (a : Option String),
      (headingMatches tokens (toLowerStr title)).1 ≠ 0 →
      (entries.map TitleEntry.docId).Nodup →
      (⟨d, a⟩ : TitleEntry) ∈ entries →
      scopeOk proj d = true →
      alookup (processHeading proj tokens st (title, entries)).scores d
        = some (agetD st.scores d 0
            + SECTION_WEIGHT K * ((headingMatches tokens (toLowerStr title)).1 : K))
      ∧ alookup (processHeading proj tokens st (title, entries)).sections d
        = some (agetD st.sections d [] ++ [⟨title, a⟩]) := by
  intro K inst proj tokens st title entries d a hm hnd hmem hsc
  exact processHeading_lookup proj tokens st title entries d a hm hnd hmem hsc

/-- C3, as stated, fails on duplicated tokens: on `exIdxC3`, the query
`"aa aa"` has one distinct token whose stem the heading contains, so the
claim predicts a bonus of `2.0 × 1 = 2`; the code counts occurrences and
adds `4`, recording the heading once. -/
theorem C3_counterexample :
    alookup (finalState exParams exIdxC3 none
        (tokeniseWithRaw exParams.stem "aa aa")).scores "x:0" = some 4
  ∧ alookup (finalState exParams exIdxC3 none
        (tokeniseWithRaw exParams.stem "aa aa")).sections "x:0"
      = some [⟨"aa heading", some "anch"⟩]
  ∧ (4 : ℚ) ≠ SECTION_WEIGHT ℚ * 1 := by
  have htoks : tokeniseWithRaw exParams.stem "aa aa" = [⟨"aa", "aa"⟩, ⟨"aa", "aa"⟩] := by
    decide
  have htp : tokenPhase exParams exIdxC3 none (tokeniseWithRaw exParams.stem "aa aa")
      = emptyState := by
    rw [tokenPhase, htoks, List.foldl_cons, List.foldl_cons, List.foldl_nil,
      processToken_eq_self exParams exIdxC3 none emptyState ⟨"aa", "aa"⟩ rfl rfl rfl rfl,
      processToken_eq_self exParams exIdxC3 none emptyState ⟨"aa", "aa"⟩ rfl rfl rfl rfl]
  have hsp : sectionPhase none (tokeniseWithRaw exParams.stem "aa aa") exIdxC3
      (tokenPhase exParams exIdxC3 none (tokeniseWithRaw exParams.stem "aa aa"))
      = processHeading none (tokeniseWithRaw exParams.stem "aa aa") emptyState
          ("aa heading", [⟨"x:0", some "anch"⟩]) := by
    rw [sectionPhase, htp]
    rfl
  have h := processHeading_lookup none (tokeniseWithRaw exParams.stem "aa aa")
    (emptyState (K := ℚ)) "aa heading" [⟨"x:0", some "anch"⟩] "x:0" (some "anch")
    (by decide) (by decide) (by decide) rfl
  refine ⟨?_, ?_, by norm_num [SECTION_WEIGHT]⟩
  · rw [finalState_scores, bonusApply_of_le_one _ _ _ (by decide), hsp, h.1,
      show ((headingMatches (tokeniseWithRaw exParams.stem "aa aa")
        (toLowerStr "aa heading")).1) = 2 from by decide]
    norm_num [SECTION_WEIGHT, agetD, alookup, emptyState]
  · rw [finalState_sections, hsp, h.2]
    simp [agetD, alookup, emptyState]

/-- Witness for C3 at a concrete heading, entry and doc. -/
theorem C3_section_bonus_witness :
    alookup (processHeading none (tokeniseWithRaw exParams.stem "aa")
        (emptyState (K := ℚ)) ("aa heading", [⟨"x:0", some "anch"⟩])).scores "x:0"
      = some (agetD (emptyState (K := ℚ)).scores "x:0" 0
          + SECTION_WEIGHT ℚ * (((headingMatches (tokeniseWithRaw exParams.stem "aa")
              (toLowerStr "aa heading")).1 : ℕ) : ℚ))
  ∧ alookup (processHeading none (tokeniseWithRaw exParams.stem "aa")
        (emptyState (K := ℚ)) ("aa heading", [⟨"x:0", some "anch"⟩])).sections "x:0"
      = some (agetD (emptyState (K := ℚ)).sections "x:0" [] ++ [⟨"aa heading", some "anch"⟩]) :=
  C3_section_bonus ℚ none (tokeniseWithRaw exParams.stem "aa") emptyState
    "aa heading" [⟨"x:0", some "anch"⟩] "x:0" (some "anch")
    (by decide) (by decide) (by decide) rfl

/-- One doc matching both body terms of a two-stem query (for C4). -/
def exIdxC4 : SearchIndex :=
  ⟨[⟨"x:0", "x", "f", "T", "u"⟩], [("aa", ["x:0"]), ("bb", ["x:0"])], [], []⟩

/-- C4: the ×1.25 all-tokens multiplier hits a doc's total score exactly
when the query has more than one distinct stem and the doc's matched-stem
set equals the set of all distinct query stems; and for a single-stem
query the whole score map is left untouched by the bonus pass. -/
theorem C4_all_tokens_bonus :
    (∀ (K : Type) [inst : LinearOrderedField K] (P : EngineParams K)
      (idx : SearchIndex) (q : String) (proj : Option String) (d : String)
      (ms : List String),
      alookup ((sectionPhase proj (tokeniseWithRaw P.stem q) idx
        (tokenPhase P idx proj (tokeniseWithRaw P.stem q)))).tms d = some ms →
      ((1 < (uniqueStems (tokeniseWithRaw P.stem q)).length ∧
          (∀ x, x ∈ ms ↔ x ∈ uniqueStems (tokeniseWithRaw P.stem q))) →
        alookup (finalState P idx proj (tokeniseWithRaw P.stem q)).scores d
          = (alookup ((sectionPhase proj (tokeniseWithRaw P.stem q) idx
              (tokenPhase P idx proj (tokeniseWithRaw P.stem q)))).scores d).map
              (fun v => v * ALL_TOKENS_BONUS K))
      ∧ (¬(1 < (uniqueStems (tokeniseWithRaw P.stem q)).length ∧
            (∀ x, x ∈ ms ↔ x ∈ uniqueStems (tokeniseWithRaw P.stem q))) →
        alookup (finalState P idx proj (tokeniseWithRaw P.stem q)).scores d
          = alookup ((sectionPhase proj (tokeniseWithRaw P.stem q) idx
              (tokenPhase P idx proj (tokeniseWithRaw P.stem q)))).scores d))
  ∧ (∀ (K : Type) [inst : LinearOrderedField K] (P : EngineParams K)
      (idx : SearchIndex) (q : String) (proj : Option String),
      (uniqueStems (tokeniseWithRaw P.stem q)).length ≤ 1 →
      (finalState P idx proj (tokeniseWithRaw P.stem q)).scores
        = ((sectionPhase proj (tokeniseWithRaw P.stem q) idx
            (tokenPhase P idx proj (tokeniseWithRaw P.stem q)))).scores) := by
  constructor
  · intro K inst P idx q proj d ms htms
    have hInv := sectionPhase_keysInv proj (tokeniseWithRaw P.stem q) idx _
      (tokenPhase_keysInv P idx proj (tokeniseWithRaw P.stem q))
    have hndtms : (akeys ((sectionPhase proj (tokeniseWithRaw P.stem q) idx
        (tokenPhase P idx proj (tokeniseWithRaw P.stem q)))).tms).Nodup :=
      hInv.1 ▸ hInv.2
    obtain ⟨hmsnd, hmssub⟩ := sectionPhase_TmsOk P idx proj
      (tokeniseWithRaw P.stem q) d ms htms
    have hsub : ∀ x ∈ ms, x ∈ uniqueStems (tokeniseWithRaw P.stem q) :=
      fun x hx => (mem_uniqueStems _ x).mpr (hmssub x hx)
    have hiff := nodup_subset_length_iff ms (uniqueStems (tokeniseWithRaw P.stem q))
      hmsnd (uniqueStems_nodup _) hsub
    have hlookup := bonusApply_lookup_some
      (uniqueStems (tokeniseWithRaw P.stem q)).length
      ((sectionPhase proj (tokeniseWithRaw P.stem q) idx
        (tokenPhase P idx proj (tokeniseWithRaw P.stem q)))).tms
      ((sectionPhase proj (tokeniseWithRaw P.stem q) idx
        (tokenPhase P idx proj (tokeniseWithRaw P.stem q)))).scores
      d ms hndtms htms
    constructor
    · rintro ⟨hgt, hset⟩
      have hlen : ms.length = (uniqueStems (tokeniseWithRaw P.stem q)).length :=
        hiff.mpr hset
      rw [finalState_scores, hlookup, if_pos ⟨hgt, hlen⟩]
      have hdmem : d ∈ akeys ((sectionPhase proj (tokeniseWithRaw P.stem q) idx
          (tokenPhase P idx proj (tokeniseWithRaw P.stem q)))).scores := by
        rw [hInv.1]
        exact (alookup_isSome_iff_mem _ d).mp (by rw [htms]; rfl)
      obtain ⟨v, hv⟩ := Option.isSome_iff_exists.mp
        ((alookup_isSome_iff_mem _ _).mpr hdmem)
      rw [hv]
      rw [show agetD ((sectionPhase proj (tokeniseWithRaw P.stem q) idx
          (tokenPhase P idx proj (tokeniseWithRaw P.stem q)))).scores d 0 = v from by
        unfold agetD
        rw [hv]
        rfl]
      rfl
    · intro hncond
      rw [finalState_scores, hlookup]
      by_cases hgt : 1 < (uniqueStems (tokeniseWithRaw P.stem q)).length
      · have hlen : ¬ ms.length = (uniqueStems (tokeniseWithRaw P.stem q)).length := by
          intro hlen
          exact hncond ⟨hgt, hiff.mp hlen⟩
        rw [if_neg (fun hc => hlen hc.2)]
      · rw [if_neg (fun hc => hgt hc.1)]
  · intro K inst P idx q proj hle
    rw [finalState_scores, bonusApply_of_le_one _ _ _ hle]

/-- Witness for C4 on a two-stem query whose single doc matches both
stems: its score is multiplied by 5/4. -/
theorem C4_all_tokens_bonus_witness :
    alookup (finalState exParams exIdxC4 none
        (tokeniseWithRaw exParams.stem "aa bb")).scores "x:0"
      = (alookup ((sectionPhase none (tokeniseWithRaw exParams.stem "aa bb") exIdxC4
          (tokenPhase exParams exIdxC4 none
            (tokeniseWithRaw exParams.stem "aa bb")))).scores "x:0").map
          (fun v => v * ALL_TOKENS_BONUS ℚ) :=
  (C4_all_tokens_bonus.1 ℚ exParams exIdxC4 "aa bb" none "x:0" ["aa", "bb"]
      (by decide)).1
    ⟨by decide, by
      rw [show uniqueStems (tokeniseWithRaw exParams.stem "aa bb") = ["aa", "bb"]
        from by decide]
      exact fun x => Iff.rfl⟩

/-! ## The fuzzy-match contract (for C5) -/

theorem fuzzyStep_gate (jw : String → String → K) (token : String)
    (best : Option (String × K)) (key : String)
    (h : 4 < ((key.length : ℤ) - (token.length : ℤ)).natAbs) :
    fuzzyStep jw token best key = best := by
  rw [fuzzyStep, if_pos h]

theorem fuzzyStep_none_lt (jw : String → String → K) (token key : String)
    (hg : ¬ 4 < ((key.length : ℤ) - (token.length : ℤ)).natAbs)
    (h : jw token key < FUZZY_THRESHOLD K) :
    fuzzyStep jw token none key = none := by
  rw [fuzzyStep, if_neg hg]
  exact if_neg (not_le.mpr h)

theorem fuzzyStep_none_ge (jw : String → String → K) (token key : String)
    (hg : ¬ 4 < ((key.length : ℤ) - (token.length : ℤ)).natAbs)
    (h : FUZZY_THRESHOLD K ≤ jw token key) :
    fuzzyStep jw token none key = some (key, jw token key) := by
  rw [fuzzyStep, if_neg hg]
  exact if_pos h

theorem fuzzyStep_some_upd (jw : String → String → K) (token key bk : String)
    (bs : K) (hg : ¬ 4 < ((key.length : ℤ) - (token.length : ℤ)).natAbs)
    (h : FUZZY_THRESHOLD K ≤ jw token key ∧ bs < jw token key) :
    fuzzyStep jw token (some (bk, bs)) key = some (key, jw token key) := by
  rw [fuzzyStep, if_neg hg]
  exact if_pos h

theorem fuzzyStep_some_keep (jw : String → String → K) (token key bk : String)
    (bs : K) (hg : ¬ 4 < ((key.length : ℤ) - (token.length : ℤ)).natAbs)
    (h : ¬(FUZZY_THRESHOLD K ≤ jw token key ∧ bs < jw token key)) :
    fuzzyStep jw token (some (bk, bs)) key = some (bk, bs) := by
  rw [fuzzyStep, if_neg hg]
  exact if_neg h

theorem fuzzyStep_some_ne_none (jw : String → String → K) (token key : String)
    (x : String × K) : fuzzyStep jw token (some x) key ≠ none := by
  obtain ⟨bk, bs⟩ := x
  by_cases hg : 4 < ((key.length : ℤ) - (token.length : ℤ)).natAbs
  · rw [fuzzyStep_gate _ _ _ _ hg]
    exact fun h => Option.noConfusion h
  · by_cases h : FUZZY_THRESHOLD K ≤ jw token key ∧ bs < jw token key
    · rw [fuzzyStep_some_upd _ _ _ _ _ hg h]
      exact fun h => Option.noConfusion h
    · rw [fuzzyStep_some_keep _ _ _ _ _ hg h]
      exact fun h => Option.noConfusion h

theorem fuzzy_foldl_some_ne_none (jw : String → String → K) (token : String)
    (keys : List String) (x : String × K) :
    keys.foldl (fuzzyStep jw token) (some x) ≠ none := by
  induction keys generalizing x with
  | nil => exact fun h => Option.noConfusion h
  | cons key rest ih =>
    rw [List.foldl_cons]
    cases hstep : fuzzyStep jw token (some x) key with
    | none => exact absurd hstep (fuzzyStep_some_ne_none jw token key x)
    | some y => exact ih y

theorem fuzzy_foldl_none_iff (jw : String → String → K) (token : String)
    (keys : List String) :
    ∀ acc, keys.foldl (fuzzyStep jw token) acc = none ↔
      (acc = none ∧ ∀ k ∈ keys,
        ((k.length : ℤ) - (token.length : ℤ)).natAbs ≤ 4 →
          jw token k < FUZZY_THRESHOLD K) := by
  induction keys with
  | nil =>
    intro acc
    simp
  | cons key rest ih =>
    intro acc
    rw [List.foldl_cons, ih]
    by_cases hg : 4 < ((key.length : ℤ) - (token.length : ℤ)).natAbs
    · rw [fuzzyStep_gate _ _ _ _ hg]
      constructor
      · rintro ⟨h1, h2⟩
        refine ⟨h1, ?_⟩
        intro k hk hgk
        rcases List.mem_cons.mp hk with rfl | hk
        · omega
        · exact h2 k hk hgk
      · rintro ⟨h1, h2⟩
        exact ⟨h1, fun k hk hgk => h2 k (List.mem_cons_of_mem _ hk) hgk⟩
    · have hgate : ((key.length : ℤ) - (token.length : ℤ)).natAbs ≤ 4 := by omega
      cases acc with
      | none =>
        by_cases hth : FUZZY_THRESHOLD K ≤ jw token key
        · rw [fuzzyStep_none_ge _ _ _ hg hth]
          constructor
          · rintro ⟨h1, -⟩
            cases h1
          · rintro ⟨-, h2⟩
            exact absurd hth (not_le.mpr (h2 key (List.mem_cons_self _ _) hgate))
        · rw [fuzzyStep_none_lt _ _ _ hg (not_le.mp hth)]
          constructor
          · rintro ⟨-, h2⟩
            refine ⟨rfl, ?_⟩
            intro k hk hgk
            rcases List.mem_cons.mp hk with rfl | hk
            · exact not_le.mp hth
            · exact h2 k hk hgk
          · rintro ⟨-, h2⟩
            exact ⟨rfl, fun k hk hgk => h2 k (List.mem_cons_of_mem _ hk) hgk⟩
      | some x =>
        constructor
        · rintro ⟨h1, -⟩
          exact absurd h1 (fuzzyStep_some_ne_none jw token key x)
        · rintro ⟨h1, -⟩
          cases h1

theorem fuzzy_foldl_some_char (jw : String → String → K) (token : String)
    (keys : List String) :
    ∀ (acc : Option (String × K)) (k : String) (s : K),
      (acc = none ∨ ∃ bk bs, acc = some (bk, bs) ∧ FUZZY_THRESHOLD K ≤ bs) →
      keys.foldl (fuzzyStep jw token) acc = some (k, s) →
      FUZZY_THRESHOLD K ≤ s ∧
      (some (k, s) = acc ∨ (k ∈ keys ∧
        ((k.length : ℤ) - (token.length : ℤ)).natAbs ≤ 4 ∧ s = jw token k)) ∧
      (∀ k' ∈ keys, ((k'.length : ℤ) - (token.length : ℤ)).natAbs ≤ 4 →
        jw token k' ≤ s) ∧
      (∀ bk bs, acc = some (bk, bs) → bs ≤ s) := by
  induction keys with
  | nil =>
    intro acc k s hacc h
    rw [List.foldl_nil] at h
    subst h
    rcases hacc with h1 | ⟨bk, bs, heq, hbs⟩
    · cases h1
    · injection heq with heq2
      refine ⟨?_, Or.inl rfl, by simp, ?_⟩
      · injection heq2 with h3 h4
        rw [h4]
        exact hbs
      · intro bk' bs' he
        injection he with he2
        injection he2 with h5 h6
        rw [h6]
  | cons key rest ih =>
    intro acc k s hacc h
    rw [List.foldl_cons] at h
    by_cases hg : 4 < ((key.length : ℤ) - (token.length : ℤ)).natAbs
    · rw [fuzzyStep_gate _ _ _ _ hg] at h
      obtain ⟨c1, c2, c3, c4⟩ := ih acc k s hacc h
      refine ⟨c1, ?_, ?_, c4⟩
      · rcases c2 with c | ⟨hm, hga, hs⟩
        · exact Or.inl c
        · exact Or.inr ⟨List.mem_cons_of_mem _ hm, hga, hs⟩
      · intro k' hk' hgk'
        rcases List.mem_cons.mp hk' with rfl | hk'
        · omega
        · exact c3 k' hk' hgk'
    · have hgate : ((key.length : ℤ) - (token.length : ℤ)).natAbs ≤ 4 := by omega
      rcases hacc with rfl | ⟨bk, bs, rfl, hbs⟩
      · by_cases hth : FUZZY_THRESHOLD K ≤ jw token key
        · rw [fuzzyStep_none_ge _ _ _ hg hth] at h
          obtain ⟨c1, c2, c3, c4⟩ := ih _ k s
            (Or.inr ⟨key, jw token key, rfl, hth⟩) h
          have hkey_le : jw token key ≤ s := c4 key (jw token key) rfl
          refine ⟨c1, ?_, ?_, ?_⟩
          · rcases c2 with c | ⟨hm, hga, hs⟩
            · injection c with c'
              injection c' with h5 h6
              exact Or.inr ⟨h5 ▸ List.mem_cons_self _ _, by rw [h5]; exact hgate,
                by rw [h6, h5]⟩
            · exact Or.inr ⟨List.mem_cons_of_mem _ hm, hga, hs⟩
          · intro k' hk' hgk'
            rcases List.mem_cons.mp hk' with rfl | hk'
            · exact hkey_le
            · exact c3 k' hk' hgk'
          · intro bk' bs' he
            cases he
        · rw [fuzzyStep_none_lt _ _ _ hg (not_le.mp hth)] at h
          obtain ⟨c1, c2, c3, c4⟩ := ih _ k s (Or.inl rfl) h
          refine ⟨c1, ?_, ?_, ?_⟩
          · rcases c2 with c | ⟨hm, hga, hs⟩
            · cases c
            · exact Or.inr ⟨List.mem_cons_of_mem _ hm, hga, hs⟩
          · intro k' hk' hgk'
            rcases List.mem_cons.mp hk' with rfl | hk'
            · exact le_of_lt (lt_of_lt_of_le (not_le.mp hth) c1)
            · exact c3 k' hk' hgk'
          · intro bk' bs' he
            cases he
      · by_cases hupd : FUZZY_THRESHOLD K ≤ jw token key ∧ bs < jw token key
        · rw [fuzzyStep_some_upd _ _ _ _ _ hg hupd] at h
          obtain ⟨c1, c2, c3, c4⟩ := ih _ k s
            (Or.inr ⟨key, jw token key, rfl, hupd.1⟩) h
          have hkey_le : jw token key ≤ s := c4 key (jw token key) rfl
          refine ⟨c1, ?_, ?_, ?_⟩
          · rcases c2 with c | ⟨hm, hga, hs⟩
            · injection c with c'
              injection c' with h5 h6
              exact Or.inr ⟨h5 ▸ List.mem_cons_self _ _, by rw [h5]; exact hgate,
                by rw [h6, h5]⟩
            · exact Or.inr ⟨List.mem_cons_of_mem _ hm, hga, hs⟩
          · intro k' hk' hgk'
            rcases List.mem_cons.mp hk' with rfl | hk'
            · exact hkey_le
            · exact c3 k' hk' hgk'
          · intro bk' bs' he
            injection he with he2
            injection he2 with h5 h6
            rw [← h6]
            exact le_of_lt (lt_of_lt_of_le hupd.2 hkey_le)
        · rw [fuzzyStep_some_keep _ _ _ _ _ hg hupd] at h
          obtain ⟨c1, c2, c3, c4⟩ := ih _ k s (Or.inr ⟨bk, bs, rfl, hbs⟩) h
          have hbs_le : bs ≤ s := c4 bk bs rfl
          refine ⟨c1, ?_, ?_, c4⟩
          · rcases c2 with c | ⟨hm, hga, hs⟩
            · exact Or.inl c
            · exact Or.inr ⟨List.mem_cons_of_mem _ hm, hga, hs⟩
          · intro k' hk' hgk'
            rcases List.mem_cons.mp hk' with rfl | hk'
            · by_cases hth : FUZZY_THRESHOLD K ≤ jw token k'
              · have : ¬ bs < jw token k' := fun hc => hupd ⟨hth, hc⟩
                exact le_trans (not_lt.mp this) hbs_le
              · exact le_of_lt (lt_of_lt_of_le (not_le.mp hth) c1)
            · exact c3 k' hk' hgk'

/-- C5: `fuzzyMatch` is a total function (it never raises); it returns
`null` exactly when no key within the ±4 length gate reaches
Jaro-Winkler similarity 0.88, and otherwise returns a gated key of
maximal similarity together with that similarity, which is ≥ 0.88. -/
theorem C5_fuzzyMatch_contract :
    ∀ (K : Type) [inst : LinearOrderedField K] (jw : String → String → K)
      (token : String) (keys : List String),
      (fuzzyMatch jw token keys = none ↔
        ∀ k ∈ keys, ((k.length : ℤ) - (token.length : ℤ)).natAbs ≤ 4 →
          jw token k < FUZZY_THRESHOLD K)
    ∧ (∀ k s, fuzzyMatch jw token keys = some (k, s) →
        k ∈ keys ∧ ((k.length : ℤ) - (token.length : ℤ)).natAbs ≤ 4 ∧
        s = jw token k ∧ FUZZY_THRESHOLD K ≤ s ∧
        ∀ k' ∈ keys, ((k'.length : ℤ) - (token.length : ℤ)).natAbs ≤ 4 →
          jw token k' ≤ s) := by
  intro K inst jw token keys
  constructor
  · rw [fuzzyMatch, fuzzy_foldl_none_iff]
    simp
  · intro k s h
    obtain ⟨c1, c2, c3, -⟩ :=
      fuzzy_foldl_some_char jw token keys none k s (Or.inl rfl) h
    rcases c2 with c | ⟨hm, hga, hs⟩
    · cases c
    · exact ⟨hm, hga, hs, c1, c3⟩

/-- Witness for C5: with no candidate keys the match is a normal `null`. -/
theorem C5_fuzzyMatch_contract_witness :
    fuzzyMatch (fun _ _ => (0 : ℚ)) "ab" ([] : List String) = none :=
  (C5_fuzzyMatch_contract ℚ (fun _ _ => 0) "ab" []).1.mpr (by simp)

/-! ## C6: degenerate queries -/

/-- An empty index, for exercising the short-circuit. -/
def exIdxC6 : SearchIndex := ⟨[], [], [], []⟩

/-- C6: a query all of whose raw fragments are shorter than two characters
or stop words (the empty query included) tokenises to the empty token list,
and `search` then returns the empty result list for every index, scope and
limit — the index is never consulted. -/
theorem C6_stopword_query_empty :
    ∀ (K : Type) [inst : LinearOrderedField K] (P : EngineParams K)
      (q : String),
      (∀ t ∈ rawFragments q, t.length < 2 ∨ t ∈ STOP_WORDS) →
      tokenise P.stem q = [] ∧ tokeniseWithRaw P.stem q = [] ∧
      ∀ (idx : SearchIndex) (proj : Option String) (limit : ℕ),
        search P idx q proj limit = [] := by
  intro K inst P q h
  have hq : queryFragments q = [] := queryFragments_eq_nil q h
  refine ⟨?_, ?_, ?_⟩
  · rw [tokenise, hq]
    rfl
  · exact tokeniseWithRaw_eq_nil P.stem q h
  · intro idx proj limit
    rw [search_eq_take,
      searchAll_of_tokens_empty P idx q proj (tokeniseWithRaw_eq_nil P.stem q h),
      List.take_nil]

/-- Witness for C6: "the and a" is all stop words and one-letter fragments,
and searching it on a concrete index returns nothing. -/
theorem C6_stopword_query_empty_witness :
    (∀ t ∈ rawFragments "the and a", t.length < 2 ∨ t ∈ STOP_WORDS) ∧
    tokenise exParams.stem "the and a" = [] ∧
    search exParams exIdxC6 "the and a" none 20 = [] := by
  have h : ∀ t ∈ rawFragments "the and a",
      t.length < 2 ∨ t ∈ STOP_WORDS := by decide
  obtain ⟨h1, -, h3⟩ := C6_stopword_query_empty ℚ exParams "the and a" h
  exact ⟨h, h1, h3 exIdxC6 none 20⟩

/-! ## C7: the merge pipeline on zero qualifying directories -/

theorem combineMain_def (dirs : List DirEntry) :
    combineMain dirs =
      if ((insertionSortB (fun a b : DirEntry => strLeB a.name b.name)
            dirs).filterMap dirQualified).isEmpty
      then none
      else some (buildSnapshot
        ((insertionSortB (fun a b : DirEntry => strLeB a.name b.name)
          dirs).filterMap dirQualified)) := rfl

theorem buildSnapshot_projects (qs : List QualifiedProject) :
    (buildSnapshot qs).projects = qs.map projectMetaOf := rfl

/-- C7: the merge writes no snapshot exactly when every discovered
directory lacks a raw index (a clean "nothing to build" exit, not an
error), and when a snapshot is written its project list is exactly the
qualifying directories, in sorted name order — non-qualifying directories
are skipped, never abort the merge. -/
theorem C7_zero_qualifying_clean_exit :
    ∀ dirs : List DirEntry,
      (combineMain dirs = none ↔ ∀ d ∈ dirs, d.sphinx = none) ∧
      (∀ snap, combineMain dirs = some snap →
        snap.projects.map ProjectMeta.id
          = ((insertionSortB (fun a b : DirEntry => strLeB a.name b.name)
              dirs).filter fun d => d.sphinx.isSome).map DirEntry.name) := by
  intro dirs
  rw [combineMain_def]
  have hmemq : ∀ d : DirEntry,
      d ∈ insertionSortB (fun a b : DirEntry => strLeB a.name b.name) dirs
        ↔ d ∈ dirs :=
    fun d => insertionSortB_mem _ dirs d
  cases hqs : (insertionSortB (fun a b : DirEntry => strLeB a.name b.name)
      dirs).filterMap dirQualified with
  | nil =>
    simp only [List.isEmpty_nil, if_pos]
    constructor
    · constructor
      · intro _ d hd
        have hq : dirQualified d = none := by
          have := List.filterMap_eq_nil_iff.mp hqs
          exact this d ((hmemq d).mpr hd)
        cases hs : d.sphinx with
        | none => rfl
        | some s =>
          rw [dirQualified, hs] at hq
          cases hq
      · intro _
        trivial
    · intro snap h
      cases h
  | cons q rest =>
    simp only [List.isEmpty_cons, Bool.false_eq_true, if_false]
    constructor
    · constructor
      · intro h
        cases h
      · intro h
        exfalso
        obtain ⟨d, hd, hdq⟩ := List.mem_filterMap.mp
          (show q ∈ (insertionSortB (fun a b : DirEntry => strLeB a.name b.name)
              dirs).filterMap dirQualified from by
            rw [hqs]; exact List.mem_cons_self _ _)
        rw [dirQualified_none d (h d ((hmemq d).mp hd))] at hdq
        cases hdq
    · intro snap h
      injection h with h2
      rw [← h2, buildSnapshot_projects, List.map_map]
      have hcomp : (ProjectMeta.id ∘ projectMetaOf) = QualifiedProject.name := rfl
      rw [hcomp, ← hqs, filterMap_dirQualified_names]

/-- A minimal `projectInfo.json` descriptor (all fields absent). -/
def exInfoC7 : ProjectInfo := ⟨none, none, []⟩

/-- A one-document raw index. -/
def exSphinxC7 : SphinxIndex := ⟨["index.html"], ["Home"], [], [], []⟩

/-- One qualifying directory and one without a raw index, discovered out
of name order. -/
def exDirsC7 : List DirEntry :=
  [⟨"beta", none, false, exInfoC7⟩,
   ⟨"alpha", some exSphinxC7, true, exInfoC7⟩]

/-- The qualifying projects of `exDirsC7`, in sorted order. -/
def exQsC7 : List QualifiedProject := [⟨"alpha", exSphinxC7, true, exInfoC7⟩]

/-- Witness for C7: an index-less directory alone produces no snapshot,
and alongside a qualifying one it is skipped while the merge proceeds. -/
theorem C7_zero_qualifying_clean_exit_witness :
    combineMain [⟨"beta", none, false, exInfoC7⟩] = none ∧
    (buildSnapshot exQsC7).projects.map ProjectMeta.id = ["alpha"] := by
  constructor
  · refine (C7_zero_qualifying_clean_exit
      [⟨"beta", none, false, exInfoC7⟩]).1.mpr ?_
    intro d hd
    rcases List.mem_singleton.mp hd with rfl
    rfl
  · have h := (C7_zero_qualifying_clean_exit exDirsC7).2
      (buildSnapshot exQsC7) rfl
    rw [h]
    decide

/-! ## C8: shape of a written snapshot -/

theorem buildSnapshot_documents (qs : List QualifiedProject) :
    (buildSnapshot qs).documents = (qs.map docsOfProject).flatten := rfl

theorem buildSnapshot_terms (qs : List QualifiedProject) :
    (buildSnapshot qs).terms
      = sortValues (qs.foldl
          (fun acc q => mergeInvertedIndex acc q.sphinx.terms q.name) []) := rfl

theorem buildSnapshot_titleterms (qs : List QualifiedProject) :
    (buildSnapshot qs).titleterms
      = sortValues (qs.foldl
          (fun acc q => mergeInvertedIndex acc q.sphinx.titleterms q.name) []) := rfl

/-- C8: over qualifying projects with distinct names the snapshot holds
exactly one project entry per project, one document record per source
file (so Σ of the per-project counts), pairwise distinct document ids
`"<projectId>:<localIndex>"`, and every posting list of `terms` and
`titleterms` sorted lexicographically. -/
theorem C8_snapshot_shape :
    ∀ qs : List QualifiedProject,
      (qs.map QualifiedProject.name).Nodup →
      (buildSnapshot qs).projects.length = qs.length ∧
      (buildSnapshot qs).documents.length
        = (qs.map fun q => q.sphinx.filenames.length).sum ∧
      ((buildSnapshot qs).documents.map DocumentRecord.id).Nodup ∧
      (∀ k l, alookup (buildSnapshot qs).terms k = some l →
        l.Pairwise fun a b => strLeB a b = true) ∧
      (∀ k l, alookup (buildSnapshot qs).titleterms k = some l →
        l.Pairwise fun a b => strLeB a b = true) := by
  intro qs hnames
  refine ⟨?_, ?_, ?_, ?_, ?_⟩
  · rw [buildSnapshot_projects, List.length_map]
  · rw [buildSnapshot_documents, List.length_flatten, List.map_map]
    exact congrArg List.sum
      (List.map_congr_left fun q _ => docsOfProject_length q)
  · rw [buildSnapshot_documents, List.map_flatten, List.map_map]
    rw [List.nodup_flatten]
    constructor
    · intro l hl
      obtain ⟨q, -, rfl⟩ := List.mem_map.mp hl
      exact docsOfProject_id_nodup q
    · rw [List.pairwise_map]
      have hpair : qs.Pairwise fun a b => a.name ≠ b.name :=
        List.pairwise_map.mp hnames
      refine hpair.imp ?_
      intro q₁ q₂ hne
      intro x hx1 hx2
      rw [Function.comp_apply, docsOfProject_map_id] at hx1 hx2
      obtain ⟨i, -, rfl⟩ := List.mem_map.mp hx1
      obtain ⟨j, -, hxeq⟩ := List.mem_map.mp hx2
      exact hne (mkDocId_inj hxeq.symm).1
  · intro k l h
    rw [buildSnapshot_terms] at h
    exact sortValues_sorted _ k l h
  · intro k l h
    rw [buildSnapshot_titleterms] at h
    exact sortValues_sorted _ k l h

/-- Two qualifying projects with distinct names, two and one documents. -/
def exQsC8 : List QualifiedProject :=
  [⟨"alpha", ⟨["a.html", "b.html"], ["A", "B"], [], [], []⟩, true,
    ⟨none, none, []⟩⟩,
   ⟨"gamma", ⟨["c.html"], ["C"], [], [], []⟩, false, ⟨none, none, []⟩⟩]

/-- Witness for C8: on two concrete projects the snapshot has two project
entries, three documents and duplicate-free ids. -/
theorem C8_snapshot_shape_witness :
    (exQsC8.map QualifiedProject.name).Nodup ∧
    (buildSnapshot exQsC8).projects.length = 2 ∧
    (buildSnapshot exQsC8).documents.length = 3 ∧
    ((buildSnapshot exQsC8).documents.map DocumentRecord.id).Nodup := by
  have h : (exQsC8.map QualifiedProject.name).Nodup := by decide
  obtain ⟨h1, h2, h3, -, -⟩ := C8_snapshot_shape exQsC8 h
  refine ⟨h, ?_, ?_, h3⟩
  · rw [h1]
    rfl
  · rw [h2]
    rfl

/-! ## C9: the response metadata of the GET handler -/

/-- C9 (amended): the metadata echoes the query and project and reports
`count` as the number of results actually returned, but `total` is the
number of matching documents capped at 500 — the route computes it from a
`search` call that itself truncates to an internal over-fetch limit of
500, so it understates the pre-truncation match count whenever more than
500 documents match. -/
theorem C9_meta_capped_total :
    ∀ (K : Type) [inst : LinearOrderedField K] (P : EngineParams K)
      (idx : SearchIndex) (q : String) (proj : Option String) (limit : ℕ),
      (getHandler P idx q proj limit).meta.query = q ∧
      (getHandler P idx q proj limit).meta.project = proj ∧
      (getHandler P idx q proj limit).meta.count
        = (getHandler P idx q proj limit).results.length ∧
      (getHandler P idx q proj limit).meta.total
        = min 500 (searchAll P idx q proj).length := by
  intro K inst P idx q proj limit
  refine ⟨rfl, rfl, rfl, ?_⟩
  show (search P idx q proj 500).length = _
  rw [search_eq_take, List.length_take]

/-- The 501 namespaced document ids of the oversized example index. -/
def bigIds : List String := (List.range 501).map (mkDocId "p")

/-- An index with 501 documents, all carrying the one body term "aa". -/
def bigIdx : SearchIndex :=
  ⟨(List.range 501).map fun i => ⟨mkDocId "p" i, "p", "f", "T", "u"⟩,
   [("aa", bigIds)], [], []⟩

theorem bigIds_length : bigIds.length = 501 := by
  show ((List.range 501).map (mkDocId "p")).length = 501
  rw [List.length_map, List.length_range]

theorem bigIds_nodup : bigIds.Nodup := by
  refine List.Nodup.map_on ?_ (List.nodup_range _)
  intro i _ j _ hij
  exact (mkDocId_inj hij).2

theorem sectionPhase_eq (project : Option String) (tokens : List Token)
    (idx : SearchIndex) (st : SState K) :
    sectionPhase project tokens idx st
      = (getAllTitles idx).foldl (processHeading project tokens) st := rfl

theorem tokenPhase_eq (P : EngineParams K) (idx : SearchIndex)
    (project : Option String) (tokens : List Token) :
    tokenPhase P idx project tokens
      = tokens.foldl (processToken P idx project) emptyState := rfl

theorem bigIds_eq : bigIds = (List.range 501).map (mkDocId "p") := rfl

theorem bigIdx_terms : bigIdx.terms = [("aa", bigIds)] := rfl

theorem bigIdx_titleterms : bigIdx.titleterms = [] := rfl

theorem bigIdx_alltitles : getAllTitles bigIdx = [] := rfl

theorem bigIdx_documents :
    bigIdx.documents = (List.range 501).map fun i =>
      (⟨mkDocId "p" i, "p", "f", "T", "u"⟩ : DocumentRecord) := rfl

theorem bigIdx_searchAll_length :
    (searchAll exParams bigIdx "aa" none).length = 501 := by
  have htok : tokeniseWithRaw exParams.stem "aa" = [⟨"aa", "aa"⟩] := by decide
  have hterm : getTermDocs bigIdx "aa" = bigIds := by
    show agetD bigIdx.terms "aa" [] = bigIds
    rw [bigIdx_terms]
    simp [agetD, alookup]
  have htitle : getTitleTermDocs bigIdx "aa" = [] := by
    show agetD bigIdx.titleterms "aa" [] = []
    rw [bigIdx_titleterms]
    rfl
  have hne : ¬((getTitleTermDocs bigIdx "aa").length = 0 ∧
      (getTermDocs bigIdx "aa").length = 0) := by
    rw [hterm, bigIds_length]
    simp
  have hemp : akeys (emptyState (K := ℚ)).scores = ([] : List String) := rfl
  have hkeys : akeys (finalState exParams bigIdx none
      [(⟨"aa", "aa"⟩ : Token)]).scores = bigIds := by
    rw [finalState_scores_akeys, sectionPhase_eq, bigIdx_alltitles,
      List.foldl_nil, tokenPhase_eq, List.foldl_cons, List.foldl_nil]
    have hPT := processToken_eq_of_exact exParams bigIdx none emptyState
      (⟨"aa", "aa"⟩ : Token) hne
    dsimp only at hPT
    rw [htitle, hterm, List.foldl_nil] at hPT
    rw [hPT, foldl_addScore_akeys_none _ _ _ _ bigIds_nodup, hemp,
      List.nil_append]
    refine List.filter_eq_self.mpr fun a _ => by simp
  have hdocsid : bigIdx.documents.map DocumentRecord.id = bigIds := by
    rw [bigIdx_documents, List.map_map]
    rfl
  have hdocnodup : (bigIdx.documents.map DocumentRecord.id).Nodup := by
    rw [hdocsid]
    exact bigIds_nodup
  have hfilter : bigIds.filter
      (fun k => (alookup (docMap bigIdx) k).isSome) = bigIds := by
    refine List.filter_eq_self.mpr fun k hk => ?_
    rw [bigIds_eq] at hk
    obtain ⟨i, hi, rfl⟩ := List.mem_map.mp hk
    have hd : (⟨mkDocId "p" i, "p", "f", "T", "u"⟩ : DocumentRecord)
        ∈ bigIdx.documents := by
      rw [bigIdx_documents]
      exact List.mem_map.mpr ⟨i, hi, rfl⟩
    have hlook := docMap_lookup_self bigIdx hdocnodup _ hd
    dsimp only at hlook
    show (alookup (docMap bigIdx) (mkDocId "p" i)).isSome = true
    rw [hlook]
    rfl
  have hmapid : (buildResults bigIdx (finalState exParams bigIdx none
        [(⟨"aa", "aa"⟩ : Token)])).map SearchResult.docId = bigIds := by
    rw [buildResults_map_docId, hkeys, hfilter]
  have hlenBR : (buildResults bigIdx (finalState exParams bigIdx none
        [(⟨"aa", "aa"⟩ : Token)])).length = 501 := by
    have h := congrArg List.length hmapid
    rw [List.length_map, bigIds_length] at h
    exact h
  rw [searchAll_of_tokens_ne exParams bigIdx "aa" none
      (by rw [htok]; simp), htok, insertionSortB_length, hlenBR]

theorem getHandler_meta_total (P : EngineParams K) (idx : SearchIndex)
    (q : String) (proj : Option String) (limit : ℕ) :
    (getHandler P idx q proj limit).meta.total
      = (search P idx q proj 500).length := rfl

/-- Counterexample to C9 as stated: with 501 matching documents the
handler reports `total = 500`, not the pre-truncation match count 501,
because the route's own `search` call truncates at 500 first. -/
theorem C9_counterexample :
    (searchAll exParams bigIdx "aa" none).length = 501 ∧
    (getHandler exParams bigIdx "aa" none 20).meta.total = 500 ∧
    (getHandler exParams bigIdx "aa" none 20).meta.total
      ≠ (searchAll exParams bigIdx "aa" none).length := by
  have hsa := bigIdx_searchAll_length
  have htotal : (getHandler exParams bigIdx "aa" none 20).meta.total = 500 := by
    rw [getHandler_meta_total, search_eq_take, List.length_take, hsa]
    decide
  refine ⟨hsa, htotal, ?_⟩
  rw [htotal, hsa]
  decide

/-! ## C10: uniqueness and resolution of returned results -/

/-- C10: every result list `search` returns has pairwise distinct
document ids (scores are accumulated in a map keyed by document id), and
every returned entry resolves through the snapshot's document map,
carrying that record's project, title and URL. -/
theorem C10_unique_resolved_results :
    ∀ (K : Type) [inst : LinearOrderedField K] (P : EngineParams K)
      (idx : SearchIndex) (q : String) (proj : Option String) (limit : ℕ),
      ((search P idx q proj limit).map SearchResult.docId).Nodup ∧
      (search P idx q proj limit).all (fun r =>
        match alookup (docMap idx) r.docId with
        | none => false
        | some doc =>
          decide (r.project = doc.project) && decide (r.title = doc.title)
            && decide (r.url = doc.url)) = true := by
  intro K inst P idx q proj limit
  refine ⟨search_docId_nodup P idx q proj limit, ?_⟩
  rw [List.all_eq_true]
  intro r hr
  have hr' : r ∈ searchAll P idx q proj :=
    mem_search_mem_searchAll P idx q proj limit r hr
  by_cases h : tokeniseWithRaw P.stem q = []
  · rw [searchAll_of_tokens_empty P idx q proj h] at hr'
    cases hr'
  · rw [searchAll_of_tokens_ne P idx q proj h] at hr'
    have hb : r ∈ buildResults idx
        (finalState P idx proj (tokeniseWithRaw P.stem q)) :=
      (insertionSortB_perm resultLeB _).mem_iff.mp hr'
    obtain ⟨doc, hl, h1, h2, h3⟩ := buildResults_resolve idx _ r hb
    rw [hl]
    simp [h1, h2, h3]

end QDocs
